import Mathlib

/-!
Verification of the portfolio optimization engine.

Shallow embedding of `src/lib/markowitz.ts` (and the covariance builder of
`src/pages/PortfolioPage.tsx`) over exact rational arithmetic.  JavaScript
numbers are modelled by `ℚ`; the only irrational quantity produced by the
engine is a square root (`Math.sqrt`), which we keep symbolic: a frontier
point stores the *floored variance* (`var2`, the argument of the square
root) and its reported risk is `Real.sqrt var2`.  Since `Real.sqrt` is
strictly monotone on nonnegatives, sorting by `var2` is the same ordering
as the source's sort by `risk`.

Mutating array loops are translated to pure `List.range`-indexed maps and
folds; `arr[i]` reads become `List.getD i` with the JS-unreachable default.
-/

namespace Markowitz

/-- Matrix entry accessor: `m[i][j]`, with `0` for out-of-range reads
(all in-range in every actual call). -/
def entry (m : List (List ℚ)) (i j : ℕ) : ℚ := (m.getD i []).getD j 0

/-- JS `arr.reduce((a, b) => a + b, 0)`. -/
def sumList (l : List ℚ) : ℚ := l.foldl (· + ·) 0

/-- Spread `Math.min(...l)` for a nonempty rational list. -/
def listMin (l : List ℚ) : ℚ := l.foldl min (l.headD 0)

/-- Spread `Math.max(...l)` for a nonempty rational list. -/
def listMax (l : List ℚ) : ℚ := l.foldl max (l.headD 0)

/-- Minimum common series length, `Math.min(...lengths)`. -/
def minLenOf (assetReturns : List (List ℚ)) : ℕ :=
  (assetReturns.map List.length).foldl min
    ((assetReturns.map List.length).headD 0)

/-! ## Gaussian elimination (`solve`, `invertMatrix` of markowitz.ts)

Both routines share the same loop: select the partial pivot, swap it into
place, bail out if it is below the tolerance, scale the pivot row and
eliminate the pivot column from every other row (Gauss-Jordan).  The `for`
loop over columns is a fuel-indexed recursion (`gjRun`), one `gjStep` per
column; the in-place row updates are pure whole-row rebuilds. -/

/-- Pivot selection of both solvers: starting from `pivot = col`, scan rows
`col+1 .. n-1` and keep the row with the strictly largest `|aug[row][col]|`
(ties keep the earliest row). -/
def pivotRow (aug : List (List ℚ)) (n col : ℕ) : ℕ :=
  (List.range' (col + 1) (n - (col + 1))).foldl
    (fun p r => if |entry aug r col| > |entry aug p col| then r else p) col

/-- Row swap `[aug[i], aug[j]] = [aug[j], aug[i]]` as a pure rebuild. -/
def swapRows (m : List (List ℚ)) (i j : ℕ) : List (List ℚ) :=
  (List.range m.length).map fun r =>
    if r = i then m.getD j [] else if r = j then m.getD i [] else m.getD r []

/-- Pivot-row scaling `for (j = 0; j < width; j++) row[j] /= d` (both solvers scale the whole
pivot row). -/
def scaleRow (row : List ℚ) (d : ℚ) : List ℚ :=
  (List.range row.length).map fun j => row.getD j 0 / d

/-- Row elimination `for (j = 0; j < width; j++) target[j] -= f * pivotRow[j]`. -/
def subRow (target pr : List ℚ) (f : ℚ) : List ℚ :=
  (List.range target.length).map fun j => target.getD j 0 - f * pr.getD j 0

/-- The work done by one column of the elimination once the tolerance
check has passed: swap the selected pivot row into place, scale it by the
pivot, subtract `f` times the scaled pivot row from every other row. -/
def gjElim (aug : List (List ℚ)) (n col : ℕ) : List (List ℚ) :=
  let a1 := swapRows aug col (pivotRow aug n col)
  let prow := scaleRow (a1.getD col []) (entry a1 col col)
  let a2 := a1.set col prow
  (List.range a2.length).map fun r =>
    if r = col then a2.getD r []
    else subRow (a2.getD r []) prow (entry a2 r col)

/-- One column of the elimination: pivot search, swap, tolerance check on
`aug[col][col]` after the swap, then scaling and elimination (`gjElim`). -/
def gjStep (tol : ℚ) (n : ℕ) (aug : List (List ℚ)) (col : ℕ) :
    Option (List (List ℚ)) :=
  if |entry (swapRows aug col (pivotRow aug n col)) col col| < tol then none
  else some (gjElim aug n col)

/-- The `for (col = 0; col < n; col++)` loop: run `fuel` elimination steps
starting at column `col`, aborting (`none`) on a sub-tolerance pivot. -/
def gjRun (tol : ℚ) (n : ℕ) (aug : List (List ℚ)) (col fuel : ℕ) :
    Option (List (List ℚ)) :=
  match fuel with
  | 0 => some aug
  | fuel + 1 =>
    match gjStep tol n aug col with
    | none => none
    | some a => gjRun tol n a (col + 1) fuel

/-- Tolerance of the frontier KKT solver (`solve`). -/
def tolSolve : ℚ := 1 / 10 ^ 10

/-- Tolerance of matrix inversion (`invertMatrix`). -/
def tolInv : ℚ := 1 / 10 ^ 12

/-- The augmented matrix `[A | b]` built by `solve`. -/
def solveAug (A : List (List ℚ)) (b : List ℚ) : List (List ℚ) :=
  (List.range A.length).map fun i => A.getD i [] ++ [b.getD i 0]

/-- Function `solve(A, b)`: Gaussian elimination with partial pivoting on `[A | b]`,
tolerance `1e-10`; on success the last column holds the solution. -/
def solve (A : List (List ℚ)) (b : List ℚ) : Option (List ℚ) :=
  let n := A.length
  (gjRun tolSolve n (solveAug A b) 0 n).map fun a =>
    a.map fun row => row.getD n 0

/-- The augmented matrix `[M | I]` built by `invertMatrix`. -/
def invAug (M : List (List ℚ)) : List (List ℚ) :=
  (List.range M.length).map fun i =>
    M.getD i [] ++ ((List.range M.length).map fun j => if i = j then (1 : ℚ) else 0)

/-- Function `invertMatrix(M)`: Gauss-Jordan on `[M | I]`, tolerance `1e-12`; on
success the right block holds the inverse. -/
def invertMatrix (M : List (List ℚ)) : Option (List (List ℚ)) :=
  let n := M.length
  (gjRun tolInv n (invAug M) 0 n).map fun a => a.map fun row => row.drop n

/-- Product `matVec(M, v) = M.map(row => row.reduce((s, m, j) => s + m * v[j], 0))`. -/
def matVec (M : List (List ℚ)) (v : List ℚ) : List ℚ :=
  M.map fun row =>
    (List.range row.length).foldl (fun s j => s + row.getD j 0 * v.getD j 0) 0

/-! ## Moment estimation -/

/-- Daily mean return `r.reduce((a, b) => a + b, 0) / r.length`. -/
def meanOf (r : List ℚ) : ℚ := sumList r / (r.length : ℚ)

/-- Inner sum `Σ_t (rᵢ[t] − meanᵢ)(rⱼ[t] − meanⱼ)` shared by both
covariance builders. -/
def covSum (returns : List (List ℚ)) (i j T : ℕ) : ℚ :=
  let ri := returns.getD i []
  let rj := returns.getD j []
  let meanI := sumList ri / (T : ℚ)
  let meanJ := sumList rj / (T : ℚ)
  (List.range T).foldl
    (fun s t => s + (ri.getD t 0 - meanI) * (rj.getD t 0 - meanJ)) 0

/-- Estimator `covMatrix` of markowitz.ts.  The source fills `j ≥ i` and mirrors
`cov[j][i] = cov[i][j]`; since the entry formula is symmetric in `i, j`,
building every entry from the formula is the same matrix.  `T` is
`returns[0].length`; the unguarded `/(T-1)` is exact division here
(the only caller guarantees `T ≥ 2`). -/
def covMatrix (returns : List (List ℚ)) : List (List ℚ) :=
  let n := returns.length
  let T := (returns.headD []).length
  (List.range n).map fun i =>
    (List.range n).map fun j => covSum returns i j T / ((T : ℚ) - 1)

/-- Builder `buildCovMatrix` of PortfolioPage.tsx: same entry formula, with
`T = returns[0]?.length ?? 0` and the explicit guard
`T > 1 ? s / (T - 1) : 0`. -/
def buildCovMatrix (returns : List (List ℚ)) : List (List ℚ) :=
  let n := returns.length
  let T := (returns.headD []).length
  (List.range n).map fun i =>
    (List.range n).map fun j =>
      if 1 < T then covSum returns i j T / ((T : ℚ) - 1) else 0

/-! ## Portfolio evaluation -/

/-- Expected-return fold `meanRets.reduce((s, m, j) => s + m * weights[j], 0)`. -/
def portRetOf (meanRets weights : List ℚ) : ℚ :=
  (List.range meanRets.length).foldl
    (fun s j => s + meanRets.getD j 0 * weights.getD j 0) 0

/-- Variance fold `weights.reduce((s, wi, i) => s + weights.reduce((s2, wj, j) =>
s2 + wi * wj * cov[i][j], 0), 0)`. -/
def portVarOf (weights : List ℚ) (cov : List (List ℚ)) : ℚ :=
  (List.range weights.length).foldl
    (fun s i =>
      s + (List.range weights.length).foldl
        (fun s2 j => s2 + weights.getD i 0 * weights.getD j 0 * entry cov i j) 0)
    0

/-- Default risk-free rate `0.04`. -/
def defaultRf : ℚ := 4 / 100

/-- Evaluator `portfolioSharpe`: expected return, variance floored at 0, volatility
`√variance`, Sharpe `(ret − rf)/vol` when `vol > 0`, else `0`. -/
noncomputable def portfolioSharpe (weights meanRets : List ℚ)
    (cov : List (List ℚ)) (riskFree : ℚ := defaultRf) : ℝ :=
  let ret := portRetOf meanRets weights
  let var2 := portVarOf weights cov
  let vol := Real.sqrt ((max 0 var2 : ℚ) : ℝ)
  if 0 < vol then ((ret - riskFree : ℚ) : ℝ) / vol else 0

/-! ## Tangency (max-Sharpe) portfolio -/

/-- Tangency portfolio `maxSharpeWeights(meanRets, cov, riskFree = 0.04)`. -/
def maxSharpeWeights (meanRets : List ℚ) (cov : List (List ℚ))
    (riskFree : ℚ := defaultRf) : Option (List ℚ) :=
  let n := meanRets.length
  if n = 0 then none
  else
    let excess := meanRets.map fun r => r - riskFree
    match invertMatrix cov with
    | none => none
    | some covInv =>
      let w := matVec covInv excess
      let s := sumList w
      if |s| < tolInv then none else some (w.map fun x => x / s)

/-! ## Frontier optimizer -/

/-- The `(n+2)×(n+2)` KKT matrix of `optimizeWeights`: top-left block
`2Σ`, columns `n`/`n+1` are `−μ`/`−1`, rows `n`/`n+1` are `μᵀ`/`1ᵀ` with
zero corner. -/
def kktMatrix (meanRets : List ℚ) (cov : List (List ℚ)) : List (List ℚ) :=
  let n := meanRets.length
  (List.range (n + 2)).map fun i =>
    if i < n then
      ((List.range n).map fun j => 2 * entry cov i j)
        ++ [-(meanRets.getD i 0), -1]
    else if i = n then meanRets ++ [0, 0]
    else List.replicate n (1 : ℚ) ++ [0, 0]

/-- Right-hand side `[0, …, 0, targetRet, 1]` of the KKT system. -/
def kktRhs (n : ℕ) (targetRet : ℚ) : List ℚ :=
  List.replicate n (0 : ℚ) ++ [targetRet, 1]

/-- Frontier solve `optimizeWeights(meanRets, cov, targetRet)`: solve the KKT system and
keep the first `n` entries. -/
def optimizeWeights (meanRets : List ℚ) (cov : List (List ℚ))
    (targetRet : ℚ) : Option (List ℚ) :=
  let n := meanRets.length
  (solve (kktMatrix meanRets cov) (kktRhs n targetRet)).map fun x => x.take n

/-- One point of the efficient frontier.  `ret` is the portfolio return,
`var2` the variance floored at `0`; the source stores
`risk = Math.sqrt(var2)`, recovered here by `PortfolioPoint.risk`. -/
structure PortfolioPoint where
  ret : ℚ
  var2 : ℚ
  weights : List ℚ
  deriving DecidableEq

/-- The reported risk `√(max(0, variance))` of a frontier point. -/
noncomputable def PortfolioPoint.risk (p : PortfolioPoint) : ℝ :=
  Real.sqrt (p.var2 : ℝ)

/-- Ascending-by-risk comparison used by the final
`sort((a, b) => a.risk - b.risk)`; as `Real.sqrt` is monotone this is the
order of the stored floored variances. -/
def byRisk (a b : PortfolioPoint) : Prop := a.var2 ≤ b.var2

instance : DecidableRel byRisk := fun a b =>
  inferInstanceAs (Decidable (a.var2 ≤ b.var2))

instance : IsTotal PortfolioPoint byRisk := ⟨fun a b => le_total a.var2 b.var2⟩

instance : IsTrans PortfolioPoint byRisk := ⟨fun _ _ _ h h' => le_trans h h'⟩

/-- Loop body of the frontier sweep: attempt the KKT solve at one target
return; on success package return / floored variance / weights
(`continue` on failure = `none`). -/
def frontierPointAt (meanRets : List ℚ) (cov : List (List ℚ)) (t : ℚ) :
    Option PortfolioPoint :=
  match optimizeWeights meanRets cov t with
  | none => none
  | some w => some ⟨portRetOf meanRets w, max 0 (portVarOf w cov), w⟩

/-- Alignment `assetReturns.map(r => r.slice(-minLen))`. -/
def alignedReturns (assetReturns : List (List ℚ)) : List (List ℚ) :=
  assetReturns.map fun r => r.drop (r.length - minLenOf assetReturns)

/-- The `i`-th swept target return,
`low + (high − low) * (i / nPoints)`. -/
def sweepTarget (low high : ℚ) (nPoints i : ℕ) : ℚ :=
  low + (high - low) * ((i : ℚ) / (nPoints : ℚ))

/-- Per-asset mean returns `returns.map(r => ...sum / r.length)` of
the aligned series. -/
def frontMeans (assetReturns : List (List ℚ)) : List ℚ :=
  (alignedReturns assetReturns).map meanOf

/-- Sweep lower bound `minRet = Math.min(...meanRets)`. -/
def frontLow (assetReturns : List (List ℚ)) : ℚ :=
  listMin (frontMeans assetReturns)

/-- Sweep upper bound `maxRet = Math.max(...meanRets)`. -/
def frontHigh (assetReturns : List (List ℚ)) : ℚ :=
  listMax (frontMeans assetReturns)

/-- The sweep loop `for (i = 0; i <= nPoints; i++) { ... if (!weights)
continue; frontier.push(...) }`: the unsorted list of successful frontier
points. -/
def frontRaw (assetReturns : List (List ℚ)) (nPoints : ℕ) :
    List PortfolioPoint :=
  (List.range (nPoints + 1)).filterMap fun i =>
    frontierPointAt (frontMeans assetReturns)
      (covMatrix (alignedReturns assetReturns))
      (sweepTarget (frontLow assetReturns) (frontHigh assetReturns) nPoints i)

/-- Sweep `computeEfficientFrontier(assetReturns, nPoints = 50)`: early-return
`[]` for `n = 0` or common length `< 2`; sweep `nPoints+1` targets from the
minimum to the maximum single-asset mean, skipping singular solves; sort
ascending by risk. -/
def computeEfficientFrontier (assetReturns : List (List ℚ))
    (nPoints : ℕ := 50) : List PortfolioPoint :=
  if assetReturns.length = 0 then []
  else if minLenOf assetReturns < 2 then []
  else List.insertionSort byRisk (frontRaw assetReturns nPoints)

/-! ## Policy variants (imported by the pages, missing from the source) -/

/-- Modelled from the spec: `maxSharpeWeightsLongOnly` is imported from
`lib/markowitz` by both pages but absent from the provided source.  Per
§4.5 it runs the same core computation as `maxSharpeWeights` and then
always clips negative weights to `0` and renormalizes (per §7, weights are
left as-is when the clipped sum is zero, which cannot happen for a core
result summing to 1). -/
def maxSharpeWeightsLongOnly (meanRets : List ℚ) (cov : List (List ℚ))
    (riskFree : ℚ := defaultRf) : Option (List ℚ) :=
  (maxSharpeWeights meanRets cov riskFree).map fun w =>
    let clipped := w.map fun x => max 0 x
    let s := sumList clipped
    if s = 0 then clipped else clipped.map fun x => x / s

/-- The `(n+1)×(n+1)` system of the global-minimum-variance portfolio:
the frontier KKT system without the target-return constraint. -/
def minVarMatrix (cov : List (List ℚ)) : List (List ℚ) :=
  let n := cov.length
  (List.range (n + 1)).map fun i =>
    if i < n then ((List.range n).map fun j => 2 * entry cov i j) ++ [-1]
    else List.replicate n (1 : ℚ) ++ [0]

/-- Modelled from the spec: `minVarianceWeights(cov)` is imported by
OptimizationPage but absent from the provided source.  Per §6 it is the
degenerate frontier solve at the global-minimum-variance point,
unconstrained on return: minimize `wᵀΣw` subject to `wᵀ1 = 1`, via the
shared linear solver, keeping the first `n` entries. -/
def minVarianceWeights (cov : List (List ℚ)) : Option (List ℚ) :=
  let n := cov.length
  (solve (minVarMatrix cov) (List.replicate n (0 : ℚ) ++ [1])).map
    fun x => x.take n

/-! ## Verification-side definitions

Shapes, the two loop invariants of the elimination, and an explicit
matrix product used to state the algebraic claims. -/

/-- Predicate: `m` is a `rows × cols` matrix. -/
def isMat (m : List (List ℚ)) (rows cols : ℕ) : Prop :=
  m.length = rows ∧ ∀ row ∈ m, row.length = cols

/-- The first `col` columns of `aug` are the corresponding identity
columns. -/
def leftId (n col : ℕ) (aug : List (List ℚ)) : Prop :=
  ∀ c < col, ∀ r < n, entry aug r c = if r = c then 1 else 0

/-- Every row of `aug` is a linear combination of the rows of the original
augmented matrix `aug0`. -/
def spanInv (aug0 aug : List (List ℚ)) (n : ℕ) : Prop :=
  ∀ r, ∃ cf : ℕ → ℚ, ∀ j,
    entry aug r j = ∑ k in Finset.range n, cf k * entry aug0 k j

/-- List-level `n × n` identity matrix. -/
def idMat (n : ℕ) : List (List ℚ) :=
  (List.range n).map fun i => (List.range n).map fun j =>
    if i = j then (1 : ℚ) else 0

/-- List-level `n × n` matrix product. -/
def matMul (n : ℕ) (A B : List (List ℚ)) : List (List ℚ) :=
  (List.range n).map fun i => (List.range n).map fun j =>
    ∑ k in Finset.range n, entry A i k * entry B k j

/-- The `Matrix (Fin n) (Fin n)` view of a list matrix. -/
def toMat (m : List (List ℚ)) (n : ℕ) : Matrix (Fin n) (Fin n) ℚ :=
  Matrix.of fun i j => entry m i j

/-! ## Basic list access lemmas -/

theorem getD_map_range {α : Type _} (n : ℕ) (g : ℕ → α) (r : ℕ) (d : α) :
    ((List.range n).map g).getD r d = if r < n then g r else d := by
  rcases Nat.lt_or_ge r n with h | h
  · rw [List.getD_eq_getElem?_getD, List.getElem?_map]
    simp [List.getElem?_range h, h]
  · rw [List.getD_eq_getElem?_getD, List.getElem?_map,
      List.getElem?_eq_none (by simpa using h)]
    simp [Nat.not_lt.mpr h]

theorem entry_of_map_range (n : ℕ) (g : ℕ → List ℚ) (r j : ℕ) :
    entry ((List.range n).map g) r j = if r < n then (g r).getD j 0 else 0 := by
  unfold entry
  rw [getD_map_range]
  split <;> simp

theorem getD_set_list (l : List (List ℚ)) (i r : ℕ) (v : List ℚ) :
    (l.set i v).getD r [] =
      if r = i ∧ i < l.length then v else l.getD r [] := by
  rw [List.getD_eq_getElem?_getD, List.getD_eq_getElem?_getD, List.getElem?_set]
  rcases eq_or_ne i r with rfl | hne
  · by_cases h : i < l.length
    · simp [h]
    · simp [h, List.getElem?_eq_none (Nat.le_of_not_lt h)]
  · simp [hne, Ne.symm hne]

theorem getD_append_left {α : Type _} (l l' : List α) (i : ℕ) (d : α)
    (h : i < l.length) : (l ++ l').getD i d = l.getD i d := by
  rw [List.getD_eq_getElem?_getD, List.getD_eq_getElem?_getD,
    List.getElem?_append]
  simp [h]

theorem getD_append_right {α : Type _} (l l' : List α) (i : ℕ) (d : α)
    (h : l.length ≤ i) : (l ++ l').getD i d = l'.getD (i - l.length) d := by
  rw [List.getD_eq_getElem?_getD, List.getD_eq_getElem?_getD,
    List.getElem?_append]
  simp [Nat.not_lt.mpr h]

theorem getD_drop (l : List ℚ) (n i : ℕ) :
    (l.drop n).getD i 0 = l.getD (n + i) 0 := by
  rw [List.getD_eq_getElem?_getD, List.getD_eq_getElem?_getD,
    List.getElem?_drop]

theorem getD_replicate (n : ℕ) (c : ℚ) (i : ℕ) :
    (List.replicate n c).getD i 0 = if i < n then c else 0 := by
  rcases Nat.lt_or_ge i n with h | h
  · rw [List.getD_eq_getElem?_getD, List.getElem?_replicate]
    simp [h]
  · rw [List.getD_eq_getElem?_getD,
      List.getElem?_eq_none (by simpa using h)]
    simp [Nat.not_lt.mpr h]

/-! ## Fold-to-sum bridges -/

theorem foldl_add_range (n : ℕ) (f : ℕ → ℚ) (init : ℚ) :
    (List.range n).foldl (fun s j => s + f j) init
      = init + ∑ j in Finset.range n, f j := by
  induction n with
  | zero => simp
  | succ n ih =>
    rw [List.range_succ, List.foldl_append, ih, Finset.sum_range_succ]
    simp [add_assoc]

theorem foldl_add_shift (l : List ℚ) (x : ℚ) :
    l.foldl (· + ·) x = x + l.foldl (· + ·) 0 := by
  induction l generalizing x with
  | nil => simp
  | cons b t ih =>
    simp only [List.foldl_cons]
    rw [ih (x + b), ih (0 + b)]
    ring

theorem sumList_cons (a : ℚ) (l : List ℚ) :
    sumList (a :: l) = a + sumList l := by
  unfold sumList
  simp only [List.foldl_cons, zero_add]
  exact foldl_add_shift l a

theorem sumList_map_div (l : List ℚ) (s : ℚ) :
    sumList (l.map fun x => x / s) = sumList l / s := by
  induction l with
  | nil => simp [sumList]
  | cons a t ih => rw [List.map_cons, sumList_cons, sumList_cons, ih, add_div]

theorem sumList_clip_ge (l : List ℚ) :
    sumList l ≤ sumList (l.map fun x => max 0 x) := by
  induction l with
  | nil => simp [sumList]
  | cons a t ih =>
    rw [List.map_cons, sumList_cons, sumList_cons]
    exact add_le_add (le_max_right 0 a) ih

theorem sumList_eq_sum_getD (l : List ℚ) :
    sumList l = ∑ j in Finset.range l.length, l.getD j 0 := by
  induction l with
  | nil => simp [sumList]
  | cons a t ih =>
    rw [sumList_cons, ih, List.length_cons, Finset.sum_range_succ']
    simp [add_comm]

theorem sumList_take (x : List ℚ) (n : ℕ) (h : n ≤ x.length) :
    sumList (x.take n) = ∑ j in Finset.range n, x.getD j 0 := by
  rw [sumList_eq_sum_getD, List.length_take, Nat.min_eq_left h]
  refine Finset.sum_congr rfl fun j hj => ?_
  rw [List.getD_eq_getElem?_getD, List.getD_eq_getElem?_getD,
    List.getElem?_take, if_pos (Finset.mem_range.mp hj)]

/-! ## Spread min / max (`Math.min(...l)`, `Math.max(...l)`) -/

theorem foldl_min_le_init (l : List ℚ) (a : ℚ) : l.foldl min a ≤ a := by
  induction l generalizing a with
  | nil => simp
  | cons b t ih => exact le_trans (ih (min a b)) (min_le_left a b)

theorem foldl_min_le_mem (l : List ℚ) (a : ℚ) : ∀ x ∈ l, l.foldl min a ≤ x := by
  induction l generalizing a with
  | nil => simp
  | cons b t ih =>
    intro x hx
    rcases List.mem_cons.mp hx with rfl | hx
    · exact le_trans (foldl_min_le_init t (min a x)) (min_le_right a x)
    · exact ih (min a b) x hx

theorem foldl_min_mem (l : List ℚ) (a : ℚ) :
    l.foldl min a = a ∨ l.foldl min a ∈ l := by
  induction l generalizing a with
  | nil => simp
  | cons b t ih =>
    rcases ih (min a b) with h | h
    · rcases le_total a b with hab | hab
      · left; simpa [min_eq_left hab] using h
      · right; rw [List.foldl_cons, h, min_eq_right hab]; exact List.mem_cons_self b t
    · right; exact List.mem_cons_of_mem b h

theorem foldl_max_init_le (l : List ℚ) (a : ℚ) : a ≤ l.foldl max a := by
  induction l generalizing a with
  | nil => simp
  | cons b t ih => exact le_trans (le_max_left a b) (ih (max a b))

theorem foldl_max_mem_le (l : List ℚ) (a : ℚ) : ∀ x ∈ l, x ≤ l.foldl max a := by
  induction l generalizing a with
  | nil => simp
  | cons b t ih =>
    intro x hx
    rcases List.mem_cons.mp hx with rfl | hx
    · exact le_trans (le_max_right a x) (foldl_max_init_le t (max a x))
    · exact ih (max a b) x hx

theorem foldl_max_mem (l : List ℚ) (a : ℚ) :
    l.foldl max a = a ∨ l.foldl max a ∈ l := by
  induction l generalizing a with
  | nil => simp
  | cons b t ih =>
    rcases ih (max a b) with h | h
    · rcases le_total b a with hab | hab
      · left; simpa [max_eq_left hab] using h
      · right; rw [List.foldl_cons, h, max_eq_right hab]; exact List.mem_cons_self b t
    · right; exact List.mem_cons_of_mem b h

theorem listMin_le (l : List ℚ) : ∀ x ∈ l, listMin l ≤ x :=
  foldl_min_le_mem l (l.headD 0)

theorem listMin_mem (l : List ℚ) (h : l ≠ []) : listMin l ∈ l := by
  rcases foldl_min_mem l (l.headD 0) with h' | h'
  · rw [listMin, h']
    rcases l with _ | ⟨a, t⟩
    · exact absurd rfl h
    · exact List.mem_cons_self a t
  · exact h'

theorem le_listMax (l : List ℚ) : ∀ x ∈ l, x ≤ listMax l :=
  foldl_max_mem_le l (l.headD 0)

theorem listMax_mem (l : List ℚ) (h : l ≠ []) : listMax l ∈ l := by
  rcases foldl_max_mem l (l.headD 0) with h' | h'
  · rw [listMax, h']
    rcases l with _ | ⟨a, t⟩
    · exact absurd rfl h
    · exact List.mem_cons_self a t
  · exact h'

/-! ## Pivot selection lemmas -/

theorem pivotFold_spec (e : ℕ → ℚ) (l : List ℕ) (p0 : ℕ) :
    (l.foldl (fun p r => if |e r| > |e p| then r else p) p0 = p0 ∨
      l.foldl (fun p r => if |e r| > |e p| then r else p) p0 ∈ l)
    ∧ |e p0| ≤ |e (l.foldl (fun p r => if |e r| > |e p| then r else p) p0)|
    ∧ ∀ r ∈ l, |e r| ≤ |e (l.foldl (fun p r => if |e r| > |e p| then r else p) p0)| := by
  induction l generalizing p0 with
  | nil => simp
  | cons b t ih =>
    simp only [List.foldl_cons]
    by_cases hb : |e b| > |e p0|
    · rw [if_pos hb]
      obtain ⟨hmem, hinit, hall⟩ := ih b
      refine ⟨?_, le_trans (le_of_lt hb) hinit, ?_⟩
      · rcases hmem with h | h
        · right; rw [h]; exact List.mem_cons_self b t
        · right; exact List.mem_cons_of_mem b h
      · intro r hr
        rcases List.mem_cons.mp hr with rfl | hr
        · exact hinit
        · exact hall r hr
    · rw [if_neg hb]
      obtain ⟨hmem, hinit, hall⟩ := ih p0
      refine ⟨?_, hinit, ?_⟩
      · rcases hmem with h | h
        · left; exact h
        · right; exact List.mem_cons_of_mem b h
      · intro r hr
        rcases List.mem_cons.mp hr with rfl | hr
        · exact le_trans (le_of_not_lt hb) hinit
        · exact hall r hr

theorem pivotRow_ge (aug : List (List ℚ)) (n col : ℕ) :
    col ≤ pivotRow aug n col := by
  unfold pivotRow
  obtain ⟨hmem, -, -⟩ :=
    pivotFold_spec (fun r => entry aug r col)
      (List.range' (col + 1) (n - (col + 1))) col
  rcases hmem with h | h
  · rw [h]
  · exact le_of_lt (Nat.lt_of_succ_le (List.mem_range'_1.mp h).1)

theorem pivotRow_lt (aug : List (List ℚ)) (n col : ℕ) (h : col < n) :
    pivotRow aug n col < n := by
  unfold pivotRow
  obtain ⟨hmem, -, -⟩ :=
    pivotFold_spec (fun r => entry aug r col)
      (List.range' (col + 1) (n - (col + 1))) col
  rcases hmem with h' | h'
  · rw [h']; exact h
  · have := (List.mem_range'_1.mp h').2
    omega

theorem pivotRow_max (aug : List (List ℚ)) (n col r : ℕ)
    (h1 : col ≤ r) (h2 : r < n) :
    |entry aug r col| ≤ |entry aug (pivotRow aug n col) col| := by
  unfold pivotRow
  obtain ⟨-, hinit, hall⟩ :=
    pivotFold_spec (fun r => entry aug r col)
      (List.range' (col + 1) (n - (col + 1))) col
  rcases eq_or_lt_of_le h1 with rfl | hlt
  · exact hinit
  · exact hall r (List.mem_range'_1.mpr ⟨hlt, by omega⟩)

/-! ## The failure trace of the elimination

`gjRun` returns `none` exactly when, at some column, the selected partial
pivot of the state reached there is below the tolerance. -/

theorem getD_of_le {α : Type _} (l : List α) (i : ℕ) (d : α)
    (h : l.length ≤ i) : l.getD i d = d := by
  rw [List.getD_eq_getElem?_getD, List.getElem?_eq_none h]
  rfl

theorem entry_swapRows_pivot (aug : List (List ℚ)) (col p : ℕ)
    (hcp : col ≤ p) :
    entry (swapRows aug col p) col col = entry aug p col := by
  unfold swapRows
  rw [entry_of_map_range]
  rcases Nat.lt_or_ge col aug.length with h | h
  · simp [h, entry, List.getD_eq_getElem?_getD]
  · rw [if_neg (Nat.not_lt.mpr h)]
    unfold entry
    rw [getD_of_le aug p [] (le_trans h hcp)]
    rfl

theorem gjRun_zero (tol : ℚ) (n : ℕ) (aug : List (List ℚ)) (col : ℕ) :
    gjRun tol n aug col 0 = some aug := rfl

theorem gjRun_succ (tol : ℚ) (n : ℕ) (aug : List (List ℚ)) (col fuel : ℕ) :
    gjRun tol n aug col (fuel + 1) =
      match gjStep tol n aug col with
      | none => none
      | some a => gjRun tol n a (col + 1) fuel := rfl

theorem gjStep_eq_none_iff (tol : ℚ) (n : ℕ) (aug : List (List ℚ)) (col : ℕ) :
    gjStep tol n aug col = none ↔
      |entry aug (pivotRow aug n col) col| < tol := by
  by_cases h : |entry (swapRows aug col (pivotRow aug n col)) col col| < tol
  · rw [entry_swapRows_pivot aug col _ (pivotRow_ge aug n col)] at h
    simp [gjStep, entry_swapRows_pivot aug col _ (pivotRow_ge aug n col), h]
  · rw [entry_swapRows_pivot aug col _ (pivotRow_ge aug n col)] at h
    simp [gjStep, entry_swapRows_pivot aug col _ (pivotRow_ge aug n col), h]

theorem gjRun_none_iff (tol : ℚ) (n : ℕ) :
    ∀ (fuel : ℕ) (col : ℕ) (aug : List (List ℚ)),
      gjRun tol n aug col fuel = none ↔
        ∃ k < fuel, ∃ s, gjRun tol n aug col k = some s ∧
          |entry s (pivotRow s n (col + k)) (col + k)| < tol := by
  intro fuel
  induction fuel with
  | zero =>
    intro col aug
    rw [gjRun_zero]
    simp
  | succ fuel ih =>
    intro col aug
    rcases hstep : gjStep tol n aug col with _ | a
    · rw [gjRun_succ, hstep]
      constructor
      · intro _
        exact ⟨0, Nat.succ_pos fuel, aug, rfl, by
          simpa using (gjStep_eq_none_iff tol n aug col).mp hstep⟩
      · intro _; rfl
    · have hrun : ∀ k, gjRun tol n aug col (k + 1) = gjRun tol n a (col + 1) k := by
        intro k; rw [gjRun_succ, hstep]
      rw [hrun fuel, ih (col + 1) a]
      constructor
      · rintro ⟨k, hk, s, hs, hP⟩
        refine ⟨k + 1, by omega, s, (hrun k).symm ▸ hs, ?_⟩
        have : col + (k + 1) = col + 1 + k := by omega
        rw [this]
        exact hP
      · rintro ⟨k, hk, s, hs, hP⟩
        rcases k with _ | k
        · rw [gjRun_zero] at hs
          cases hs
          rw [Nat.add_zero] at hP
          exact absurd ((gjStep_eq_none_iff tol n aug col).mpr hP)
            (by rw [hstep]; simp)
        · refine ⟨k, by omega, s, ?_, ?_⟩
          · rw [← hrun k]; exact hs
          · have : col + 1 + k = col + (k + 1) := by omega
            rw [this]
            exact hP

/-- Failure characterization of `solve` at tolerance `1e-10`. -/
theorem solve_eq_none_iff (A : List (List ℚ)) (b : List ℚ) :
    solve A b = none ↔
      ∃ k < A.length, ∃ s,
        gjRun tolSolve A.length (solveAug A b) 0 k = some s ∧
          |entry s (pivotRow s A.length k) k| < tolSolve := by
  unfold solve
  rw [Option.map_eq_none']
  simpa using gjRun_none_iff tolSolve A.length A.length 0 (solveAug A b)

/-- Failure characterization of `invertMatrix` at tolerance `1e-12`. -/
theorem invertMatrix_eq_none_iff (M : List (List ℚ)) :
    invertMatrix M = none ↔
      ∃ k < M.length, ∃ s,
        gjRun tolInv M.length (invAug M) 0 k = some s ∧
          |entry s (pivotRow s M.length k) k| < tolInv := by
  unfold invertMatrix
  rw [Option.map_eq_none']
  simpa using gjRun_none_iff tolInv M.length M.length 0 (invAug M)

/-! ## Shapes through the elimination -/

theorem isMat.row_len {m : List (List ℚ)} {rows cols : ℕ}
    (h : isMat m rows cols) {r : ℕ} (hr : r < rows) :
    (m.getD r []).length = cols := by
  have hmem : m.getD r [] ∈ m := by
    rw [List.getD_eq_getElem?_getD,
      List.getElem?_eq_getElem (by rw [h.1]; exact hr)]
    exact List.getElem_mem _
  exact h.2 _ hmem

theorem isMat.entry_zero_of_ge {m : List (List ℚ)} {rows cols : ℕ}
    (h : isMat m rows cols) {r j : ℕ} (hj : cols ≤ j) : entry m r j = 0 := by
  unfold entry
  rcases Nat.lt_or_ge r rows with hr | hr
  · exact getD_of_le _ _ _ (by rw [h.row_len hr]; exact hj)
  · rw [getD_of_le m r [] (by rw [h.1]; exact hr)]
    rfl

theorem length_swapRows (m : List (List ℚ)) (i j : ℕ) :
    (swapRows m i j).length = m.length := by
  unfold swapRows
  rw [List.length_map, List.length_range]

theorem isMat_swapRows {m : List (List ℚ)} {n w : ℕ} (h : isMat m n w)
    (i j : ℕ) (hi : i < n) (hj : j < n) : isMat (swapRows m i j) n w := by
  refine ⟨by rw [length_swapRows, h.1], ?_⟩
  intro row hrow
  unfold swapRows at hrow
  obtain ⟨r, hr, rfl⟩ := List.mem_map.mp hrow
  have hr' : r < n := by
    rw [← h.1]
    exact List.mem_range.mp hr
  split
  · exact h.row_len hj
  · split
    · exact h.row_len hi
    · exact h.row_len hr'

theorem length_scaleRow (row : List ℚ) (d : ℚ) :
    (scaleRow row d).length = row.length := by
  unfold scaleRow
  rw [List.length_map, List.length_range]

theorem length_subRow (t p : List ℚ) (f : ℚ) :
    (subRow t p f).length = t.length := by
  unfold subRow
  rw [List.length_map, List.length_range]

theorem isMat_set {m : List (List ℚ)} {n w : ℕ} (h : isMat m n w)
    (i : ℕ) {v : List ℚ} (hv : v.length = w) : isMat (m.set i v) n w := by
  refine ⟨by rw [List.length_set, h.1], ?_⟩
  intro row hrow
  rcases List.mem_or_eq_of_mem_set hrow with h' | rfl
  · exact h.2 _ h'
  · exact hv

theorem isMat_gjElim {aug : List (List ℚ)} {n w : ℕ} (h : isMat aug n w)
    {col : ℕ} (hcol : col < n) : isMat (gjElim aug n col) n w := by
  have hp : pivotRow aug n col < n := pivotRow_lt aug n col hcol
  have h1 : isMat (swapRows aug col (pivotRow aug n col)) n w :=
    isMat_swapRows h col _ hcol hp
  have hprow :
      (scaleRow ((swapRows aug col (pivotRow aug n col)).getD col [])
        (entry (swapRows aug col (pivotRow aug n col)) col col)).length = w := by
    rw [length_scaleRow]
    exact h1.row_len hcol
  have h2 : isMat ((swapRows aug col (pivotRow aug n col)).set col
      (scaleRow ((swapRows aug col (pivotRow aug n col)).getD col [])
        (entry (swapRows aug col (pivotRow aug n col)) col col))) n w :=
    isMat_set h1 col hprow
  unfold gjElim
  refine ⟨by rw [List.length_map, List.length_range, h2.1], ?_⟩
  intro row hrow
  obtain ⟨r, hr, rfl⟩ := List.mem_map.mp hrow
  have hr' : r < n := by
    rw [← h2.1]
    exact List.mem_range.mp hr
  split
  · exact h2.row_len hr'
  · rw [length_subRow]
    exact h2.row_len hr'

theorem isMat_gjRun {n w : ℕ} (tol : ℚ) :
    ∀ (fuel col : ℕ) (aug a : List (List ℚ)), isMat aug n w →
      col + fuel ≤ n → gjRun tol n aug col fuel = some a → isMat a n w := by
  intro fuel
  induction fuel with
  | zero =>
    intro col aug a h _ hrun
    rw [gjRun_zero] at hrun
    cases hrun
    exact h
  | succ fuel ih =>
    intro col aug a h hle hrun
    rw [gjRun_succ] at hrun
    rcases hstep : gjStep tol n aug col with _ | a1
    · rw [hstep] at hrun
      cases hrun
    · rw [hstep] at hrun
      have ha1 : a1 = gjElim aug n col := by
        unfold gjStep at hstep
        split at hstep
        · cases hstep
        · cases hstep
          rfl
      subst ha1
      exact ih (col + 1) _ a (isMat_gjElim h (by omega)) (by omega) hrun

/-! ## Entry access through each row operation -/

theorem entry_swapRows (m : List (List ℚ)) (i j r c : ℕ) (hr : r < m.length) :
    entry (swapRows m i j) r c =
      if r = i then entry m j c else if r = j then entry m i c
      else entry m r c := by
  unfold swapRows
  rw [entry_of_map_range, if_pos hr]
  unfold entry
  split
  · rfl
  · split <;> rfl

theorem entry_set_row (m : List (List ℚ)) (i : ℕ) (v : List ℚ) (r c : ℕ) :
    entry (m.set i v) r c =
      if r = i ∧ i < m.length then v.getD c 0 else entry m r c := by
  unfold entry
  rw [getD_set_list]
  split <;> rfl

theorem getD_scaleRow (row : List ℚ) (d : ℚ) (j : ℕ) :
    (scaleRow row d).getD j 0 = row.getD j 0 / d := by
  unfold scaleRow
  rw [getD_map_range]
  split
  · rfl
  · rw [getD_of_le row j 0 (Nat.le_of_not_lt (by assumption))]
    simp

theorem getD_subRow (t p : List ℚ) (f : ℚ) (j : ℕ) (hlen : p.length ≤ t.length) :
    (subRow t p f).getD j 0 = t.getD j 0 - f * p.getD j 0 := by
  unfold subRow
  rw [getD_map_range]
  split
  · rfl
  · have ht : t.length ≤ j := Nat.le_of_not_lt (by assumption)
    rw [getD_of_le t j 0 ht, getD_of_le p j 0 (le_trans hlen ht)]
    simp

/-! ## Closed form of one elimination step -/

theorem entry_gjElim {aug : List (List ℚ)} {n w : ℕ} (h : isMat aug n w)
    {col : ℕ} (hcol : col < n) (r c : ℕ) (hr : r < n) :
    entry (gjElim aug n col) r c =
      if r = col then
        entry (swapRows aug col (pivotRow aug n col)) col c /
          entry (swapRows aug col (pivotRow aug n col)) col col
      else
        entry (swapRows aug col (pivotRow aug n col)) r c -
          entry (swapRows aug col (pivotRow aug n col)) r col *
            (entry (swapRows aug col (pivotRow aug n col)) col c /
              entry (swapRows aug col (pivotRow aug n col)) col col) := by
  have hp : pivotRow aug n col < n := pivotRow_lt aug n col hcol
  have ha1 : isMat (swapRows aug col (pivotRow aug n col)) n w :=
    isMat_swapRows h col _ hcol hp
  have hprow :
      (scaleRow ((swapRows aug col (pivotRow aug n col)).getD col [])
        (entry (swapRows aug col (pivotRow aug n col)) col col)).length = w := by
    rw [length_scaleRow]
    exact ha1.row_len hcol
  have ha2 : isMat ((swapRows aug col (pivotRow aug n col)).set col
      (scaleRow ((swapRows aug col (pivotRow aug n col)).getD col [])
        (entry (swapRows aug col (pivotRow aug n col)) col col))) n w :=
    isMat_set ha1 col hprow
  unfold gjElim
  dsimp only
  rw [show ((swapRows aug col (pivotRow aug n col)).set col
      (scaleRow ((swapRows aug col (pivotRow aug n col)).getD col [])
        (entry (swapRows aug col (pivotRow aug n col)) col col))).length = n
    from ha2.1]
  rw [entry_of_map_range, if_pos hr]
  have hcollt : col < (swapRows aug col (pivotRow aug n col)).length := by
    rw [length_swapRows, h.1]
    exact hcol
  by_cases hrc : r = col
  · subst hrc
    rw [if_pos rfl]
    show entry _ r c = _
    rw [entry_set_row, if_pos ⟨rfl, hcollt⟩, getD_scaleRow, if_pos rfl]
    rfl
  · rw [if_neg hrc]
    have hlen1 : (scaleRow ((swapRows aug col (pivotRow aug n col)).getD col [])
        (entry (swapRows aug col (pivotRow aug n col)) col col)).length ≤
        (((swapRows aug col (pivotRow aug n col)).set col
          (scaleRow ((swapRows aug col (pivotRow aug n col)).getD col [])
            (entry (swapRows aug col (pivotRow aug n col)) col col))).getD r []).length := by
      rw [hprow, ha2.row_len hr]
    rw [getD_subRow _ _ _ _ hlen1]
    show entry _ r c - entry _ r col * _ = _
    rw [entry_set_row, entry_set_row, if_neg (fun hx => hrc hx.1),
      if_neg (fun hx => hrc hx.1), getD_scaleRow, if_neg hrc]
    rfl

/-! ## Invariants of the elimination

`leftId n col aug`: the first `col` columns of the matrix form the
corresponding identity columns.  `spanInv aug0 aug n`: every row of `aug`
is a linear combination of the rows of the original augmented matrix
`aug0`. -/

theorem spanInv_init (aug0 : List (List ℚ)) (n : ℕ) (h : aug0.length = n) :
    spanInv aug0 aug0 n := by
  intro r
  rcases Nat.lt_or_ge r n with hr | hr
  · refine ⟨fun k => if k = r then 1 else 0, fun j => ?_⟩
    rw [Finset.sum_eq_single r]
    · simp
    · intro b _ hb
      simp [hb]
    · intro hmem
      exact absurd (Finset.mem_range.mpr hr) hmem
  · refine ⟨fun _ => 0, fun j => ?_⟩
    unfold entry
    rw [getD_of_le aug0 r [] (by rw [h]; exact hr)]
    simp

theorem leftId_zero (n : ℕ) (aug : List (List ℚ)) : leftId n 0 aug := by
  intro c hc
  exact absurd hc (Nat.not_lt_zero c)

/-- The swap step preserves the already-finished identity columns (both
swapped rows sit at positions `≥ col`, where those columns are zero). -/
theorem leftId_swap {aug : List (List ℚ)} {n w col : ℕ} (h : isMat aug n w)
    (hcol : col < n) (hid : leftId n col aug) :
    ∀ c < col, ∀ r < n,
      entry (swapRows aug col (pivotRow aug n col)) r c =
        if r = c then 1 else 0 := by
  intro c hc r hr
  have hp : pivotRow aug n col < n := pivotRow_lt aug n col hcol
  have hpge : col ≤ pivotRow aug n col := pivotRow_ge aug n col
  rw [entry_swapRows aug col _ r c (by rw [h.1]; exact hr)]
  by_cases h1 : r = col
  · subst h1
    rw [if_pos rfl, hid c hc _ hp,
      if_neg (by omega), if_neg (by omega)]
  · rw [if_neg h1]
    by_cases h2 : r = pivotRow aug n col
    · subst h2
      rw [if_pos rfl, hid c hc col hcol, if_neg (by omega), if_neg (by omega)]
    · rw [if_neg h2, hid c hc r hr]

theorem gjElim_leftId {aug : List (List ℚ)} {n w col : ℕ} (h : isMat aug n w)
    (hcol : col < n) (hid : leftId n col aug)
    (hpiv : entry (swapRows aug col (pivotRow aug n col)) col col ≠ 0) :
    leftId n (col + 1) (gjElim aug n col) := by
  intro c hc r hr
  rw [entry_gjElim h hcol r c hr]
  rcases Nat.lt_or_ge c col with hclt | hcge
  · have hzero : entry (swapRows aug col (pivotRow aug n col)) col c = 0 := by
      rw [leftId_swap h hcol hid c hclt col hcol, if_neg (by omega)]
    by_cases hrc : r = col
    · subst hrc
      rw [if_pos rfl, hzero, zero_div, if_neg (by omega)]
    · rw [if_neg hrc, hzero, zero_div, mul_zero, sub_zero,
        leftId_swap h hcol hid c hclt r hr]
  · have hceq : c = col := by omega
    subst hceq
    by_cases hrc : r = c
    · subst hrc
      rw [if_pos rfl, if_pos rfl, div_self hpiv]
    · rw [if_neg hrc, if_neg hrc, div_self hpiv, mul_one, sub_self]

theorem gjElim_spanInv {aug0 aug : List (List ℚ)} {n w col : ℕ}
    (h : isMat aug n w) (hcol : col < n) (hS : spanInv aug0 aug n) :
    spanInv aug0 (gjElim aug n col) n := by
  have hp : pivotRow aug n col < n := pivotRow_lt aug n col hcol
  -- every row of the swapped matrix is still spanned
  have hS1 : ∀ r, r < n → ∃ cf : ℕ → ℚ, ∀ j,
      entry (swapRows aug col (pivotRow aug n col)) r j =
        ∑ k in Finset.range n, cf k * entry aug0 k j := by
    intro r hr
    have hsw : ∀ j, entry (swapRows aug col (pivotRow aug n col)) r j =
        if r = col then entry aug (pivotRow aug n col) j
        else if r = pivotRow aug n col then entry aug col j
        else entry aug r j := fun j =>
      entry_swapRows aug col _ r j (by rw [h.1]; exact hr)
    by_cases h1 : r = col
    · obtain ⟨cf, hcf⟩ := hS (pivotRow aug n col)
      exact ⟨cf, fun j => by rw [hsw j, if_pos h1]; exact hcf j⟩
    · by_cases h2 : r = pivotRow aug n col
      · obtain ⟨cf, hcf⟩ := hS col
        exact ⟨cf, fun j => by rw [hsw j, if_neg h1, if_pos h2]; exact hcf j⟩
      · obtain ⟨cf, hcf⟩ := hS r
        exact ⟨cf, fun j => by rw [hsw j, if_neg h1, if_neg h2]; exact hcf j⟩
  intro r
  rcases Nat.lt_or_ge r n with hr | hr
  · obtain ⟨cfr, hcfr⟩ := hS1 r hr
    obtain ⟨cfc, hcfc⟩ := hS1 col hcol
    by_cases hrc : r = col
    · refine ⟨fun k => cfc k /
        entry (swapRows aug col (pivotRow aug n col)) col col, fun j => ?_⟩
      have h1 : entry (gjElim aug n col) r j =
          (∑ k in Finset.range n, cfc k * entry aug0 k j) /
            entry (swapRows aug col (pivotRow aug n col)) col col := by
        rw [entry_gjElim h hcol r j hr, if_pos hrc, hcfc j]
      rw [h1, Finset.sum_div]
      exact Finset.sum_congr rfl fun k _ =>
        (div_mul_eq_mul_div (cfc k)
          (entry (swapRows aug col (pivotRow aug n col)) col col)
          (entry aug0 k j)).symm
    · refine ⟨fun k => cfr k -
        entry (swapRows aug col (pivotRow aug n col)) r col *
          (cfc k / entry (swapRows aug col (pivotRow aug n col)) col col),
        fun j => ?_⟩
      have h1 : entry (gjElim aug n col) r j =
          (∑ k in Finset.range n, cfr k * entry aug0 k j) -
            entry (swapRows aug col (pivotRow aug n col)) r col *
              ((∑ k in Finset.range n, cfc k * entry aug0 k j) /
                entry (swapRows aug col (pivotRow aug n col)) col col) := by
        rw [entry_gjElim h hcol r j hr, if_neg hrc, hcfr j, hcfc j]
      rw [h1, Finset.sum_div, Finset.mul_sum, ← Finset.sum_sub_distrib]
      refine Finset.sum_congr rfl fun k _ => ?_
      show cfr k * entry aug0 k j -
          entry (swapRows aug col (pivotRow aug n col)) r col *
            (cfc k * entry aug0 k j /
              entry (swapRows aug col (pivotRow aug n col)) col col) =
        (cfr k - entry (swapRows aug col (pivotRow aug n col)) r col *
          (cfc k / entry (swapRows aug col (pivotRow aug n col)) col col)) *
            entry aug0 k j
      ring
  · refine ⟨fun _ => 0, fun j => ?_⟩
    have hlen : (gjElim aug n col).length = n := (isMat_gjElim h hcol).1
    unfold entry
    rw [getD_of_le _ r [] (by rw [hlen]; exact hr)]
    simp

/-- The combined invariant carried through the elimination loop. -/
theorem gjRun_inv {n w : ℕ} (tol : ℚ) (htol : 0 < tol)
    (aug0 : List (List ℚ)) :
    ∀ (fuel col : ℕ) (aug a : List (List ℚ)),
      isMat aug n w → leftId n col aug → spanInv aug0 aug n →
      col + fuel ≤ n → gjRun tol n aug col fuel = some a →
      isMat a n w ∧ leftId n (col + fuel) a ∧ spanInv aug0 a n := by
  intro fuel
  induction fuel with
  | zero =>
    intro col aug a hm hid hS _ hrun
    rw [gjRun_zero] at hrun
    cases hrun
    exact ⟨hm, by simpa using hid, hS⟩
  | succ fuel ih =>
    intro col aug a hm hid hS hle hrun
    rw [gjRun_succ] at hrun
    rcases hstep : gjStep tol n aug col with _ | a1
    · rw [hstep] at hrun
      cases hrun
    · rw [hstep] at hrun
      have hcol : col < n := by omega
      unfold gjStep at hstep
      split at hstep
      · cases hstep
      · cases hstep
        have hpiv : entry (swapRows aug col (pivotRow aug n col)) col col ≠ 0 := by
          intro hzero
          have : |entry (swapRows aug col (pivotRow aug n col)) col col| < tol := by
            rw [hzero]
            simpa using htol
          exact absurd this (by assumption)
        have h1 := isMat_gjElim hm hcol
        have h2 := gjElim_leftId hm hcol hid hpiv
        have h3 := gjElim_spanInv hm hcol hS
        have := ih (col + 1) _ a h1 h2 h3 (by omega) hrun
        refine ⟨this.1, ?_, this.2.2⟩
        have harith : col + 1 + fuel = col + (fuel + 1) := by omega
        rw [← harith]
        exact this.2.1

/-! ## From the invariants to matrix identities -/

theorem getD_map_list {α β : Type _} (l : List α) (f : α → β) (r : ℕ)
    (d : β) (d' : α) (hr : r < l.length) :
    (l.map f).getD r d = f (l.getD r d') := by
  rw [List.getD_eq_getElem?_getD, List.getElem?_map,
    List.getElem?_eq_getElem hr, List.getD_eq_getElem?_getD,
    List.getElem?_eq_getElem hr]
  rfl

theorem entry_matMul (n : ℕ) (A B : List (List ℚ)) (i j : ℕ)
    (hi : i < n) (hj : j < n) :
    entry (matMul n A B) i j =
      ∑ k in Finset.range n, entry A i k * entry B k j := by
  unfold matMul
  rw [entry_of_map_range, if_pos hi, getD_map_range, if_pos hj]

theorem entry_idMat (n i j : ℕ) (hi : i < n) (hj : j < n) :
    entry (idMat n) i j = if i = j then 1 else 0 := by
  unfold idMat
  rw [entry_of_map_range, if_pos hi, getD_map_range, if_pos hj]

theorem isMat_matMul (n : ℕ) (A B : List (List ℚ)) :
    isMat (matMul n A B) n n := by
  constructor
  · unfold matMul
    rw [List.length_map, List.length_range]
  · intro row hrow
    obtain ⟨r, -, rfl⟩ := List.mem_map.mp hrow
    rw [List.length_map, List.length_range]

theorem isMat_idMat (n : ℕ) : isMat (idMat n) n n := by
  constructor
  · unfold idMat
    rw [List.length_map, List.length_range]
  · intro row hrow
    obtain ⟨r, -, rfl⟩ := List.mem_map.mp hrow
    rw [List.length_map, List.length_range]

theorem getElem?_eq_some_getD {α : Type _} (l : List α) (j : ℕ) (d : α)
    (h : j < l.length) : l[j]? = some (l.getD j d) := by
  rw [List.getD_eq_getElem?_getD, List.getElem?_eq_getElem h]
  rfl

theorem isMat_ext {X Y : List (List ℚ)} {n m : ℕ} (hX : isMat X n m)
    (hY : isMat Y n m) (h : ∀ i < n, ∀ j < m, entry X i j = entry Y i j) :
    X = Y := by
  refine List.ext_getElem? fun i => ?_
  rcases Nat.lt_or_ge i n with hin | hin
  · rw [getElem?_eq_some_getD X i [] (by rw [hX.1]; exact hin),
      getElem?_eq_some_getD Y i [] (by rw [hY.1]; exact hin)]
    refine congrArg some (List.ext_getElem? fun j => ?_)
    rcases Nat.lt_or_ge j m with hjm | hjm
    · rw [getElem?_eq_some_getD _ j 0 (by rw [hX.row_len hin]; exact hjm),
        getElem?_eq_some_getD _ j 0 (by rw [hY.row_len hin]; exact hjm)]
      exact congrArg some (h i hin j hjm)
    · rw [List.getElem?_eq_none (by rw [hX.row_len hin]; exact hjm),
        List.getElem?_eq_none (by rw [hY.row_len hin]; exact hjm)]
  · rw [List.getElem?_eq_none (by rw [hX.1]; exact hin),
      List.getElem?_eq_none (by rw [hY.1]; exact hin)]

theorem entry_invAug (M : List (List ℚ)) {n : ℕ} (hM : isMat M n n)
    (k j : ℕ) (hk : k < n) :
    entry (invAug M) k j =
      if j < n then entry M k j
      else if j < n + n then (if k = j - n then 1 else 0) else 0 := by
  unfold invAug
  rw [hM.1, entry_of_map_range, if_pos hk]
  rcases Nat.lt_or_ge j n with hj | hj
  · rw [getD_append_left _ _ _ _ (by rw [hM.row_len hk]; exact hj), if_pos hj]
    rfl
  · rw [getD_append_right _ _ _ _ (by rw [hM.row_len hk]; exact hj),
      hM.row_len hk, getD_map_range, if_neg (Nat.not_lt.mpr hj)]
    rcases Nat.lt_or_ge j (n + n) with hj2 | hj2
    · rw [if_pos (by omega), if_pos hj2]
    · rw [if_neg (by omega), if_neg (Nat.not_lt.mpr hj2)]

theorem isMat_invAug (M : List (List ℚ)) {n : ℕ} (hM : isMat M n n) :
    isMat (invAug M) n (n + n) := by
  constructor
  · unfold invAug
    rw [List.length_map, List.length_range, hM.1]
  · intro row hrow
    unfold invAug at hrow
    obtain ⟨r, hr, rfl⟩ := List.mem_map.mp hrow
    have hr' : r < n := by rw [← hM.1]; exact List.mem_range.mp hr
    rw [List.length_append, hM.row_len hr', List.length_map, List.length_range,
      hM.1]

theorem entry_solveAug (A : List (List ℚ)) (b : List ℚ) {n : ℕ}
    (hA : isMat A n n) (k j : ℕ) (hk : k < n) :
    entry (solveAug A b) k j =
      if j < n then entry A k j
      else if j = n then b.getD k 0 else 0 := by
  unfold solveAug
  rw [hA.1, entry_of_map_range, if_pos hk]
  rcases Nat.lt_or_ge j n with hj | hj
  · rw [getD_append_left _ _ _ _ (by rw [hA.row_len hk]; exact hj), if_pos hj]
    rfl
  · rw [getD_append_right _ _ _ _ (by rw [hA.row_len hk]; exact hj),
      hA.row_len hk, if_neg (Nat.not_lt.mpr hj)]
    rcases eq_or_lt_of_le hj with rfl | hj2
    · simp
    · rw [if_neg (by omega)]
      have : 1 ≤ j - n := by omega
      rcases Nat.exists_eq_add_of_le this with ⟨c, hc⟩
      rw [show j - n = c + 1 by omega]
      simp

theorem isMat_solveAug (A : List (List ℚ)) (b : List ℚ) {n : ℕ}
    (hA : isMat A n n) : isMat (solveAug A b) n (n + 1) := by
  constructor
  · unfold solveAug
    rw [List.length_map, List.length_range, hA.1]
  · intro row hrow
    unfold solveAug at hrow
    obtain ⟨r, hr, rfl⟩ := List.mem_map.mp hrow
    have hr' : r < n := by rw [← hA.1]; exact List.mem_range.mp hr
    rw [List.length_append, hA.row_len hr']
    rfl

/-- Successful Gauss-Jordan inversion yields a left inverse:
`invertMatrix M = some R → R · M = I`. -/
theorem invertMatrix_mul {M R : List (List ℚ)} {n : ℕ}
    (hM : isMat M n n) (hR : invertMatrix M = some R) :
    isMat R n n ∧ matMul n R M = idMat n := by
  obtain ⟨hlen, hrows⟩ := hM
  subst hlen
  have hM : isMat M M.length M.length := ⟨rfl, hrows⟩
  set n := M.length with hn
  unfold invertMatrix at hR
  rw [Option.map_eq_some'] at hR
  obtain ⟨a, ha, rfl⟩ := hR
  have haug0 : isMat (invAug M) n (n + n) := isMat_invAug M hM
  have hinv := gjRun_inv tolInv (by norm_num [tolInv]) (invAug M) n 0
    (invAug M) a haug0 (leftId_zero n (invAug M))
    (spanInv_init (invAug M) n haug0.1) (by omega) ha
  obtain ⟨hma, hid0, hspan⟩ := hinv
  have hid : leftId n n a := by simpa using hid0
  have hRmat : isMat (a.map fun row => row.drop n) n n := by
    constructor
    · rw [List.length_map, hma.1]
    · intro row hrow
      obtain ⟨r, hr, rfl⟩ := List.mem_map.mp hrow
      rw [List.length_drop, hma.2 _ hr]
      omega
  -- entries of the returned right block
  have hRentry : ∀ r k, r < n →
      entry (a.map fun row => row.drop n) r k = entry a r (n + k) := by
    intro r k hr
    unfold entry
    rw [getD_map_list a _ r [] [] (by rw [hma.1]; exact hr), getD_drop]
  refine ⟨hRmat, ?_⟩
  choose cf hcf using hspan
  -- the right block recovers the span coefficients
  have hcoef : ∀ r k, r < n → k < n →
      entry (a.map fun row => row.drop n) r k = cf r k := by
    intro r k hr hk
    rw [hRentry r k hr, hcf r (n + k), Finset.sum_eq_single k]
    · rw [entry_invAug M hM k (n + k) hk, if_neg (by omega), if_pos (by omega),
        if_pos (by omega)]
      simp
    · intro m hm hmk
      rw [entry_invAug M hM m (n + k) (Finset.mem_range.mp hm),
        if_neg (by omega), if_pos (by omega), if_neg (by omega)]
      simp
    · intro hk'
      exact absurd (Finset.mem_range.mpr hk) hk'
  refine isMat_ext (isMat_matMul n _ M) (isMat_idMat n) fun i hi j hj => ?_
  rw [entry_matMul n _ M i j hi hj, entry_idMat n i j hi hj]
  have hleft : entry a i j = if i = j then 1 else 0 := hid j hj i hi
  rw [← hleft, hcf i j]
  refine Finset.sum_congr rfl fun k hk => ?_
  rw [hcoef i k hi (Finset.mem_range.mp hk),
    entry_invAug M hM k j (Finset.mem_range.mp hk), if_pos hj]

theorem fin_ite_eq (n : ℕ) (i j : Fin n) :
    (if i = j then (1 : ℚ) else 0) = if (i : ℕ) = (j : ℕ) then 1 else 0 := by
  by_cases h : i = j
  · simp [h]
  · rw [if_neg h, if_neg (fun hc => h (Fin.ext hc))]

theorem toMat_mul_eq_one {R M : List (List ℚ)} {n : ℕ}
    (h : matMul n R M = idMat n) : toMat R n * toMat M n = 1 := by
  ext i j
  rw [Matrix.mul_apply, Matrix.one_apply]
  have he := congrArg (fun X => entry X i j) h
  simp only at he
  rw [entry_matMul n R M i j i.isLt j.isLt,
    entry_idMat n i j i.isLt j.isLt] at he
  rw [show ∑ k : Fin n, toMat R n i k * toMat M n k j
      = ∑ k in Finset.range n, entry R i k * entry M k j from
    Fin.sum_univ_eq_sum_range (fun k => entry R (i : ℕ) k * entry M k (j : ℕ)) n,
    he, fin_ite_eq n i j]

theorem matMul_of_toMat_one {A B : List (List ℚ)} {n : ℕ}
    (h : toMat A n * toMat B n = 1) : matMul n A B = idMat n := by
  refine isMat_ext (isMat_matMul n A B) (isMat_idMat n) fun i hi j hj => ?_
  have happ := Matrix.ext_iff.mpr h ⟨i, hi⟩ ⟨j, hj⟩
  rw [Matrix.mul_apply, Matrix.one_apply] at happ
  rw [entry_matMul n A B i j hi hj, entry_idMat n i j hi hj,
    ← Fin.sum_univ_eq_sum_range (fun k => entry A i k * entry B k j) n]
  rw [fin_ite_eq n ⟨i, hi⟩ ⟨j, hj⟩] at happ
  exact happ

/-- Over the exact rationals a one-sided list-matrix inverse is two-sided. -/
theorem matMul_flip {A B : List (List ℚ)} {n : ℕ}
    (h : matMul n A B = idMat n) : matMul n B A = idMat n :=
  matMul_of_toMat_one (Matrix.mul_eq_one_comm.mp (toMat_mul_eq_one h))

/-- Successful `solve` returns an exact solution of the linear system:
`solve A b = some x → A · x = b` (componentwise on the first `n` rows). -/
theorem solve_spec {A : List (List ℚ)} {b x : List ℚ} {n : ℕ}
    (hA : isMat A n n) (hx : solve A b = some x) :
    x.length = n ∧
      ∀ i < n, ∑ j in Finset.range n, entry A i j * x.getD j 0 = b.getD i 0 := by
  obtain ⟨hlen, hrows⟩ := hA
  subst hlen
  have hA : isMat A A.length A.length := ⟨rfl, hrows⟩
  set n := A.length with hn
  unfold solve at hx
  rw [Option.map_eq_some'] at hx
  obtain ⟨a, ha, rfl⟩ := hx
  have haug0 : isMat (solveAug A b) n (n + 1) := isMat_solveAug A b hA
  have hinv := gjRun_inv tolSolve (by norm_num [tolSolve]) (solveAug A b) n 0
    (solveAug A b) a haug0 (leftId_zero n (solveAug A b))
    (spanInv_init (solveAug A b) n haug0.1) (by omega) ha
  obtain ⟨hma, hid0, hspan⟩ := hinv
  have hid : leftId n n a := by simpa using hid0
  choose cf hcf using hspan
  have hxlen : (a.map fun row => row.getD n 0).length = n := by
    rw [List.length_map, hma.1]
  have hxval : ∀ i, i < n →
      (a.map fun row => row.getD n 0).getD i 0 = entry a i n := by
    intro i hi
    rw [getD_map_list a _ i 0 [] (by rw [hma.1]; exact hi)]
    rfl
  have hxeq : ∀ i, i < n →
      entry a i n = ∑ k in Finset.range n, cf i k * b.getD k 0 := by
    intro i _
    rw [hcf i n]
    refine Finset.sum_congr rfl fun k hk => ?_
    rw [entry_solveAug A b hA k n (Finset.mem_range.mp hk),
      if_neg (lt_irrefl n), if_pos rfl]
  have hCA : ∀ i j, i < n → j < n →
      (if i = j then (1 : ℚ) else 0) =
        ∑ k in Finset.range n, cf i k * entry A k j := by
    intro i j hi hj
    rw [← hid j hj i hi, hcf i j]
    refine Finset.sum_congr rfl fun k hk => ?_
    rw [entry_solveAug A b hA k j (Finset.mem_range.mp hk), if_pos hj]
  have hCA1 : (Matrix.of fun i k : Fin n => cf i k) * toMat A n = 1 := by
    ext i j
    rw [Matrix.mul_apply, Matrix.one_apply,
      show ∑ k : Fin n, (Matrix.of fun i k : Fin n => cf i k) i k * toMat A n k j
        = ∑ k in Finset.range n, cf i k * entry A k j from
      Fin.sum_univ_eq_sum_range (fun k => cf (i : ℕ) k * entry A k (j : ℕ)) n,
      ← hCA i j i.isLt j.isLt, fin_ite_eq n i j]
  have hAC1 : toMat A n * (Matrix.of fun i k : Fin n => cf i k) = 1 :=
    Matrix.mul_eq_one_comm.mp hCA1
  refine ⟨hxlen, fun i hi => ?_⟩
  have hstep1 : ∑ j in Finset.range n,
      entry A i j * (a.map fun row => row.getD n 0).getD j 0
      = ∑ j in Finset.range n,
          entry A i j * ∑ k in Finset.range n, cf j k * b.getD k 0 := by
    refine Finset.sum_congr rfl fun j hj => ?_
    rw [hxval j (Finset.mem_range.mp hj), hxeq j (Finset.mem_range.mp hj)]
  have hstep2 : ∑ j in Finset.range n,
      entry A i j * ∑ k in Finset.range n, cf j k * b.getD k 0
      = ∑ k in Finset.range n,
          (∑ j in Finset.range n, entry A i j * cf j k) * b.getD k 0 := by
    have h1 : ∀ j ∈ Finset.range n,
        entry A i j * ∑ k in Finset.range n, cf j k * b.getD k 0
          = ∑ k in Finset.range n, entry A i j * cf j k * b.getD k 0 := by
      intro j _
      rw [Finset.mul_sum]
      exact Finset.sum_congr rfl fun k _ => by ring
    rw [Finset.sum_congr rfl h1, Finset.sum_comm]
    refine Finset.sum_congr rfl fun k _ => ?_
    rw [Finset.sum_mul]
  have hdelta : ∀ k, k < n →
      (∑ j in Finset.range n, entry A i j * cf j k) = if i = k then 1 else 0 := by
    intro k hk
    have happ := Matrix.ext_iff.mpr hAC1 ⟨i, hi⟩ ⟨k, hk⟩
    rw [Matrix.mul_apply, Matrix.one_apply,
      show ∑ j : Fin n, toMat A n ⟨i, hi⟩ j *
            (Matrix.of fun i k : Fin n => cf i k) j ⟨k, hk⟩
          = ∑ j in Finset.range n, entry A i j * cf j k from
        Fin.sum_univ_eq_sum_range (fun j => entry A i j * cf j k) n,
      fin_ite_eq n ⟨i, hi⟩ ⟨k, hk⟩] at happ
    exact happ
  have hsum : ∑ k in Finset.range n,
      (∑ j in Finset.range n, entry A i j * cf j k) * b.getD k 0
      = ∑ k in Finset.range n, (if i = k then (1 : ℚ) else 0) * b.getD k 0 := by
    refine Finset.sum_congr rfl fun k hk => ?_
    rw [hdelta k (Finset.mem_range.mp hk)]
  rw [hstep1, hstep2, hsum, Finset.sum_eq_single i]
  · rw [if_pos rfl, one_mul]
  · intro k _ hki
    rw [if_neg (fun hc => hki hc.symm), zero_mul]
  · intro hmem
    exact absurd (Finset.mem_range.mpr hi) hmem

/-- When both inversions succeed, the round-trip is exact:
`invertMatrix M = some E → invertMatrix E = some F → F = M`. -/
theorem invert_roundtrip {M E F : List (List ℚ)} {n : ℕ} (hM : isMat M n n)
    (hE : invertMatrix M = some E) (hF : invertMatrix E = some F) : F = M := by
  obtain ⟨hEmat, hEM⟩ := invertMatrix_mul hM hE
  obtain ⟨hFmat, hFE⟩ := invertMatrix_mul hEmat hF
  have h1 : toMat F n * toMat E n = 1 := toMat_mul_eq_one hFE
  have h2 : toMat E n * toMat M n = 1 := toMat_mul_eq_one hEM
  have h3 : toMat F n = toMat M n := by
    calc toMat F n = toMat F n * (toMat E n * toMat M n) := by rw [h2, mul_one]
      _ = (toMat F n * toMat E n) * toMat M n := by rw [mul_assoc]
      _ = toMat M n := by rw [h1, one_mul]
  refine isMat_ext hFmat hM fun i hi j hj => ?_
  exact Matrix.ext_iff.mpr h3 ⟨i, hi⟩ ⟨j, hj⟩

/-! ## Structure of the tangency optimizer -/

theorem maxSharpeWeights_nil (cov : List (List ℚ)) (rf : ℚ) :
    maxSharpeWeights [] cov rf = none := rfl

theorem maxSharpeWeights_inv_none (μ : List ℚ) (cov : List (List ℚ)) (rf : ℚ)
    (h : invertMatrix cov = none) : maxSharpeWeights μ cov rf = none := by
  unfold maxSharpeWeights
  rw [h]
  dsimp only
  split <;> rfl

theorem maxSharpeWeights_inv_some (μ : List ℚ) (cov : List (List ℚ)) (rf : ℚ)
    (covInv : List (List ℚ)) (hn : μ.length ≠ 0)
    (h : invertMatrix cov = some covInv) :
    maxSharpeWeights μ cov rf =
      if |sumList (matVec covInv (μ.map fun r => r - rf))| < tolInv then none
      else some ((matVec covInv (μ.map fun r => r - rf)).map
        fun x => x / sumList (matVec covInv (μ.map fun r => r - rf))) := by
  unfold maxSharpeWeights
  rw [h]
  dsimp only
  rw [if_neg hn]

theorem maxSharpeWeights_sum_one (μ : List ℚ) (cov : List (List ℚ)) (rf : ℚ)
    (ws : List ℚ) (h : maxSharpeWeights μ cov rf = some ws) : sumList ws = 1 := by
  rcases Nat.eq_zero_or_pos μ.length with hn | hn
  · rw [show μ = [] from List.length_eq_zero.mp hn, maxSharpeWeights_nil] at h
    cases h
  · rcases hinv : invertMatrix cov with _ | covInv
    · rw [maxSharpeWeights_inv_none μ cov rf hinv] at h
      cases h
    · rw [maxSharpeWeights_inv_some μ cov rf covInv (by omega) hinv] at h
      split at h
      · cases h
      · cases h
        rw [sumList_map_div, div_self]
        intro hzero
        have habs : ¬ |sumList (matVec covInv (μ.map fun r => r - rf))| < tolInv := by
          assumption
        rw [hzero] at habs
        exact habs (by norm_num [tolInv])

/-! ## Covariance builders -/

theorem covSum_eq_sum (returns : List (List ℚ)) (i j T : ℕ) :
    covSum returns i j T = ∑ t in Finset.range T,
      ((returns.getD i []).getD t 0 - sumList (returns.getD i []) / (T : ℚ)) *
      ((returns.getD j []).getD t 0 - sumList (returns.getD j []) / (T : ℚ)) := by
  unfold covSum
  dsimp only
  rw [foldl_add_range, zero_add]

theorem covSum_comm (returns : List (List ℚ)) (i j T : ℕ) :
    covSum returns i j T = covSum returns j i T := by
  rw [covSum_eq_sum, covSum_eq_sum]
  exact Finset.sum_congr rfl fun t _ => mul_comm _ _

theorem covSum_diag_nonneg (returns : List (List ℚ)) (i T : ℕ) :
    0 ≤ covSum returns i i T := by
  rw [covSum_eq_sum]
  exact Finset.sum_nonneg fun t _ => mul_self_nonneg _

theorem entry_covMatrix (returns : List (List ℚ)) (i j : ℕ) :
    entry (covMatrix returns) i j =
      if i < returns.length ∧ j < returns.length then
        covSum returns i j (returns.headD []).length /
          (((returns.headD []).length : ℚ) - 1)
      else 0 := by
  unfold covMatrix
  dsimp only
  rw [entry_of_map_range]
  rcases Nat.lt_or_ge i returns.length with hi | hi
  · rw [if_pos hi, getD_map_range]
    rcases Nat.lt_or_ge j returns.length with hj | hj
    · simp [hi, hj]
    · simp [hi, Nat.not_lt.mpr hj]
  · simp [Nat.not_lt.mpr hi]

theorem entry_buildCovMatrix (returns : List (List ℚ)) (i j : ℕ) :
    entry (buildCovMatrix returns) i j =
      if i < returns.length ∧ j < returns.length then
        (if 1 < (returns.headD []).length then
          covSum returns i j (returns.headD []).length /
            (((returns.headD []).length : ℚ) - 1)
         else 0)
      else 0 := by
  unfold buildCovMatrix
  dsimp only
  rw [entry_of_map_range]
  rcases Nat.lt_or_ge i returns.length with hi | hi
  · rw [if_pos hi, getD_map_range]
    rcases Nat.lt_or_ge j returns.length with hj | hj
    · simp [hi, hj]
    · simp [hi, Nat.not_lt.mpr hj]
  · simp [Nat.not_lt.mpr hi]

theorem isMat_buildCovMatrix (returns : List (List ℚ)) :
    isMat (buildCovMatrix returns) returns.length returns.length := by
  constructor
  · unfold buildCovMatrix
    rw [List.length_map, List.length_range]
  · intro row hrow
    unfold buildCovMatrix at hrow
    obtain ⟨r, -, rfl⟩ := List.mem_map.mp hrow
    rw [List.length_map, List.length_range]

theorem isMat_covMatrix (returns : List (List ℚ)) :
    isMat (covMatrix returns) returns.length returns.length := by
  constructor
  · unfold covMatrix
    rw [List.length_map, List.length_range]
  · intro row hrow
    unfold covMatrix at hrow
    obtain ⟨r, -, rfl⟩ := List.mem_map.mp hrow
    rw [List.length_map, List.length_range]

theorem covMatrix_eq_build (returns : List (List ℚ))
    (h : 2 ≤ (returns.headD []).length) :
    covMatrix returns = buildCovMatrix returns := by
  refine isMat_ext (isMat_covMatrix returns) (isMat_buildCovMatrix returns)
    fun i hi j hj => ?_
  rw [entry_covMatrix, entry_buildCovMatrix, if_pos ⟨hi, hj⟩, if_pos ⟨hi, hj⟩,
    if_pos (by omega)]

/-! ## The evaluator's folds as sums -/

theorem portRetOf_eq_sum (μ w : List ℚ) :
    portRetOf μ w =
      ∑ j in Finset.range μ.length, μ.getD j 0 * w.getD j 0 := by
  unfold portRetOf
  rw [foldl_add_range, zero_add]

theorem portVarOf_eq_sum (w : List ℚ) (cov : List (List ℚ)) :
    portVarOf w cov = ∑ i in Finset.range w.length,
      ∑ j in Finset.range w.length,
        w.getD i 0 * w.getD j 0 * entry cov i j := by
  unfold portVarOf
  rw [foldl_add_range, zero_add]
  exact Finset.sum_congr rfl fun i _ => by rw [foldl_add_range, zero_add]

theorem portfolioSharpe_pos (w μ : List ℚ) (cov : List (List ℚ)) (rf : ℚ)
    (h : 0 < portVarOf w cov) :
    portfolioSharpe w μ cov rf =
      ((portRetOf μ w - rf : ℚ) : ℝ) /
        Real.sqrt ((portVarOf w cov : ℚ) : ℝ) := by
  unfold portfolioSharpe
  dsimp only
  rw [max_eq_right h.le,
    if_pos (Real.sqrt_pos.mpr (by exact_mod_cast h))]

theorem portfolioSharpe_nonpos (w μ : List ℚ) (cov : List (List ℚ)) (rf : ℚ)
    (h : portVarOf w cov ≤ 0) : portfolioSharpe w μ cov rf = 0 := by
  unfold portfolioSharpe
  dsimp only
  rw [max_eq_left h, show ((0 : ℚ) : ℝ) = 0 from by norm_num, Real.sqrt_zero,
    if_neg (lt_irrefl 0)]

/-! ## Frontier helpers -/

theorem computeEfficientFrontier_eq (rs : List (List ℚ)) (np : ℕ)
    (h0 : rs ≠ []) (h2 : 2 ≤ minLenOf rs) :
    computeEfficientFrontier rs np =
      List.insertionSort byRisk (frontRaw rs np) := by
  unfold computeEfficientFrontier
  rw [if_neg (fun hc => h0 (List.length_eq_zero.mp hc)),
    if_neg (Nat.not_lt.mpr h2)]

theorem frontRaw_var2_nonneg (rs : List (List ℚ)) (np : ℕ) :
    ∀ p ∈ frontRaw rs np, 0 ≤ p.var2 := by
  intro p hp
  unfold frontRaw at hp
  obtain ⟨i, -, hpt⟩ := List.mem_filterMap.mp hp
  unfold frontierPointAt at hpt
  rcases hw : optimizeWeights (frontMeans rs) (covMatrix (alignedReturns rs))
      (sweepTarget (frontLow rs) (frontHigh rs) np i) with _ | ws
  · rw [hw] at hpt
    cases hpt
  · rw [hw] at hpt
    cases hpt
    exact le_max_left 0 _

theorem sorted_byRisk_risk {l : List PortfolioPoint}
    (h : List.Sorted byRisk l) :
    List.Sorted (fun a b : PortfolioPoint => a.risk ≤ b.risk) l :=
  h.imp fun hab => Real.sqrt_le_sqrt (by exact_mod_cast hab)

theorem sweepTarget_zero (low high : ℚ) (np : ℕ) :
    sweepTarget low high np 0 = low := by
  unfold sweepTarget
  simp

theorem sweepTarget_last (low high : ℚ) (np : ℕ) (h : 0 < np) :
    sweepTarget low high np np = high := by
  unfold sweepTarget
  rw [div_self (by exact_mod_cast h.ne')]
  ring

theorem sweepTarget_spacing (low high : ℚ) (np i : ℕ) (h : 0 < np) :
    sweepTarget low high np (i + 1) - sweepTarget low high np i =
      (high - low) / (np : ℚ) := by
  unfold sweepTarget
  have hnp : (np : ℚ) ≠ 0 := by exact_mod_cast h.ne'
  push_cast
  field_simp
  ring

/-! ## The global-minimum-variance system -/

theorem isMat_minVarMatrix (cov : List (List ℚ)) :
    isMat (minVarMatrix cov) (cov.length + 1) (cov.length + 1) := by
  constructor
  · unfold minVarMatrix
    rw [List.length_map, List.length_range]
  · intro row hrow
    unfold minVarMatrix at hrow
    obtain ⟨i, -, rfl⟩ := List.mem_map.mp hrow
    split
    · rw [List.length_append, List.length_map, List.length_range]
      rfl
    · rw [List.length_append, List.length_replicate]
      rfl

theorem entry_minVarMatrix_last (cov : List (List ℚ)) (j : ℕ) :
    entry (minVarMatrix cov) cov.length j =
      if j < cov.length then 1 else 0 := by
  unfold minVarMatrix
  dsimp only
  rw [entry_of_map_range, if_pos (by omega), if_neg (lt_irrefl _)]
  rcases Nat.lt_or_ge j cov.length with hj | hj
  · rw [getD_append_left _ _ _ _ (by rw [List.length_replicate]; exact hj),
      getD_replicate, if_pos hj]
  · rw [getD_append_right _ _ _ _ (by rw [List.length_replicate]; exact hj),
      List.length_replicate, if_neg (Nat.not_lt.mpr hj)]
    rcases Nat.eq_or_lt_of_le hj with rfl | hj2
    · simp
    · rw [show j - cov.length = (j - cov.length - 1) + 1 by omega]
      simp

theorem minVarianceWeights_sum_one (cov : List (List ℚ)) (w : List ℚ)
    (h : minVarianceWeights cov = some w) :
    w.length = cov.length ∧ sumList w = 1 := by
  unfold minVarianceWeights at h
  rw [Option.map_eq_some'] at h
  obtain ⟨x, hx, rfl⟩ := h
  have hmat := isMat_minVarMatrix cov
  obtain ⟨hxlen, hsol⟩ := solve_spec hmat hx
  have hrow := hsol cov.length (by omega)
  have hb : (List.replicate cov.length (0 : ℚ) ++ [1]).getD cov.length 0 = 1 := by
    rw [getD_append_right _ _ _ _ (by rw [List.length_replicate]),
      List.length_replicate, Nat.sub_self]
    rfl
  rw [hb] at hrow
  have hsum : ∑ j in Finset.range (cov.length + 1),
      entry (minVarMatrix cov) cov.length j * x.getD j 0
      = ∑ j in Finset.range cov.length, x.getD j 0 := by
    rw [Finset.sum_range_succ, entry_minVarMatrix_last,
      if_neg (lt_irrefl _), zero_mul, add_zero]
    refine Finset.sum_congr rfl fun j hj => ?_
    rw [entry_minVarMatrix_last, if_pos (Finset.mem_range.mp hj), one_mul]
  rw [hsum] at hrow
  constructor
  · rw [List.length_take, hxlen]
    omega
  · rw [sumList_take x cov.length (by rw [hxlen]; omega)]
    refine hrow.symm ▸ ?_
    rfl

/-! ## Closed 1×1 inversion -/

theorem invertMatrix_singleton (c : ℚ) (h : ¬ |c| < tolInv) :
    invertMatrix [[c]] = some [[1 / c]] := by
  unfold invertMatrix
  show Option.map (fun a => List.map (fun row => List.drop 1 row) a)
    (gjRun tolInv 1 [[c, 1]] 0 1) = some [[1 / c]]
  rw [gjRun_succ]
  rw [show gjStep tolInv 1 [[c, 1]] 0 =
    if |c| < tolInv then none else some (gjElim [[c, 1]] 1 0) from rfl]
  rw [if_neg h]
  rfl

theorem invertMatrix_singleton_none (c : ℚ) (h : |c| < tolInv) :
    invertMatrix [[c]] = none := by
  unfold invertMatrix
  show Option.map (fun a => List.map (fun row => List.drop 1 row) a)
    (gjRun tolInv 1 [[c, 1]] 0 1) = none
  rw [gjRun_succ]
  rw [show gjStep tolInv 1 [[c, 1]] 0 =
    if |c| < tolInv then none else some (gjElim [[c, 1]] 1 0) from rfl]
  rw [if_pos h]
  rfl

/-! # Claim theorems -/

/-- C2: `solve` and `invertMatrix` perform Gaussian elimination with
partial pivoting — at each column, the selected pivot row maximizes the
absolute pivot among the remaining rows and lies in the remaining range —
and each returns `none` if and only if, at some column, the selected pivot
of the state reached there is below the fixed tolerance (`1e-10` for
`solve`, `1e-12` for `invertMatrix`).  Both functions are total: no other
failure mode exists and no exception escapes. -/
theorem claim_C2 :
    (∀ (A : List (List ℚ)) (b : List ℚ),
      solve A b = none ↔ ∃ k < A.length, ∃ s,
        gjRun tolSolve A.length (solveAug A b) 0 k = some s ∧
          |entry s (pivotRow s A.length k) k| < tolSolve)
    ∧ (∀ M : List (List ℚ),
      invertMatrix M = none ↔ ∃ k < M.length, ∃ s,
        gjRun tolInv M.length (invAug M) 0 k = some s ∧
          |entry s (pivotRow s M.length k) k| < tolInv)
    ∧ (∀ (aug : List (List ℚ)) (n col r : ℕ), col ≤ r → r < n →
        |entry aug r col| ≤ |entry aug (pivotRow aug n col) col|)
    ∧ (∀ (aug : List (List ℚ)) (n col : ℕ), col < n →
        col ≤ pivotRow aug n col ∧ pivotRow aug n col < n)
    ∧ (∀ (A : List (List ℚ)) (b : List ℚ),
        solve A b = none ∨ ∃ x, solve A b = some x) := by
  refine ⟨solve_eq_none_iff, invertMatrix_eq_none_iff,
    fun aug n col r h1 h2 => pivotRow_max aug n col r h1 h2,
    fun aug n col h => ⟨pivotRow_ge aug n col, pivotRow_lt aug n col h⟩,
    fun A b => ?_⟩
  rcases hx : solve A b with _ | x
  · exact Or.inl rfl
  · exact Or.inr ⟨x, rfl⟩

theorem claim_C2_witness :
    (solve [[(0 : ℚ)]] [1] = none ↔ ∃ k < ([[(0 : ℚ)]] : List (List ℚ)).length,
      ∃ s, gjRun tolSolve ([[(0 : ℚ)]] : List (List ℚ)).length
          (solveAug [[(0 : ℚ)]] [1]) 0 k = some s ∧
        |entry s (pivotRow s ([[(0 : ℚ)]] : List (List ℚ)).length k) k| < tolSolve)
    ∧ |entry [[(3 : ℚ), 4], [5, 6]] 1 0| ≤
        |entry [[(3 : ℚ), 4], [5, 6]] (pivotRow [[(3 : ℚ), 4], [5, 6]] 2 0) 0| :=
  ⟨claim_C2.1 [[(0 : ℚ)]] [1],
   claim_C2.2.2.1 [[(3 : ℚ), 4], [5, 6]] 2 0 1 (by decide) (by decide)⟩

/-- C7: `computeEfficientFrontier` terminates normally with the empty
sequence — not an error — whenever the input has zero assets or the
shortest common series length is below 2. -/
theorem claim_C7 (assetReturns : List (List ℚ)) (nPoints : ℕ)
    (h : assetReturns.length = 0 ∨ minLenOf assetReturns < 2) :
    computeEfficientFrontier assetReturns nPoints = [] := by
  unfold computeEfficientFrontier
  rcases h with h | h
  · rw [if_pos h]
  · by_cases h0 : assetReturns.length = 0
    · rw [if_pos h0]
    · rw [if_neg h0, if_pos h]

theorem claim_C7_witness :
    computeEfficientFrontier ([] : List (List ℚ)) 50 = [] ∧
    computeEfficientFrontier [[(5 : ℚ)]] 50 = [] :=
  ⟨claim_C7 [] 50 (Or.inl (by decide)),
   claim_C7 [[(5 : ℚ)]] 50 (Or.inr (by decide))⟩

/-- C10: `maxSharpeWeights` called with an empty mean vector returns
`none` for every covariance matrix and risk-free rate — the `n = 0` test
fires before any inversion is attempted, so even an invertible covariance
matrix yields `none`. -/
theorem claim_C10 : ∀ (cov : List (List ℚ)) (rf : ℚ),
    maxSharpeWeights [] cov rf = none :=
  fun cov rf => maxSharpeWeights_nil cov rf

/-- C8 (counterexample to the claim as stated): the 1×1 covariance matrix
`[[2·10¹²]]` is non-singular under the `1e-12` pivot tolerance and inverts
to `[[5·10⁻¹³]]`, but the second inversion hits the tolerance and returns
`none` — the round-trip does not return a matrix at all. -/
theorem claim_C8_counterexample :
    invertMatrix [[(2 : ℚ) * 10 ^ 12]] = some [[1 / (2 * 10 ^ 12)]] ∧
    invertMatrix [[(1 : ℚ) / (2 * 10 ^ 12)]] = none := by
  constructor
  · rw [invertMatrix_singleton (2 * 10 ^ 12) (by rw [abs_of_pos (by norm_num)]; norm_num [tolInv])]
  · rw [invertMatrix_singleton_none (1 / (2 * 10 ^ 12)) (by rw [abs_of_pos (by norm_num)]; norm_num [tolInv])]

/-- C8 (amended): whenever the first inversion succeeds, the result is an
exact inverse — `invert(Σ)·Σ = I` in exact arithmetic — and whenever the
second inversion also succeeds, the round-trip is exactly `Σ`.  (The
second inversion can itself fail the tolerance, e.g. at `Σ = [[2·10¹²]]`.) -/
theorem claim_C8 (M E : List (List ℚ)) (n : ℕ) (hM : isMat M n n)
    (hE : invertMatrix M = some E) :
    matMul n E M = idMat n ∧ ∀ F, invertMatrix E = some F → F = M :=
  ⟨(invertMatrix_mul hM hE).2, fun _ hF => invert_roundtrip hM hE hF⟩

theorem claim_C8_witness :
    matMul 1 [[(1 : ℚ) / 4]] [[(4 : ℚ)]] = idMat 1 ∧
    ∀ F, invertMatrix [[(1 : ℚ) / 4]] = some F → F = [[(4 : ℚ)]] :=
  claim_C8 [[(4 : ℚ)]] [[(1 : ℚ) / 4]] 1 ⟨rfl, by simp⟩
    (invertMatrix_singleton 4 (by rw [abs_of_pos (by norm_num)]; norm_num [tolInv]))

/-- C3: for a mean vector of length `n ≥ 1`, `maxSharpeWeights` returns
`none` exactly when the covariance inversion is singular or the sum of the
unnormalized weights `Σ⁻¹(μ − rf·1)` has absolute value below `1e-12`;
otherwise it returns those weights divided by their sum, and the returned
entries sum exactly to 1. -/
theorem claim_C3 (meanRets : List ℚ) (cov : List (List ℚ)) (rf : ℚ)
    (hn : 1 ≤ meanRets.length) :
    (maxSharpeWeights meanRets cov rf = none ↔
      invertMatrix cov = none ∨ ∃ covInv, invertMatrix cov = some covInv ∧
        |sumList (matVec covInv (meanRets.map fun r => r - rf))| < tolInv)
    ∧ ∀ ws, maxSharpeWeights meanRets cov rf = some ws →
        (∃ covInv, invertMatrix cov = some covInv ∧
          ws = (matVec covInv (meanRets.map fun r => r - rf)).map
            fun x => x / sumList (matVec covInv (meanRets.map fun r => r - rf)))
        ∧ sumList ws = 1 := by
  constructor
  · rcases hinv : invertMatrix cov with _ | covInv
    · rw [maxSharpeWeights_inv_none meanRets cov rf hinv]
      constructor
      · intro _
        exact Or.inl rfl
      · intro _
        rfl
    · rw [maxSharpeWeights_inv_some meanRets cov rf covInv (by omega) hinv]
      by_cases hs : |sumList (matVec covInv (meanRets.map fun r => r - rf))| < tolInv
      · rw [if_pos hs]
        constructor
        · intro _
          exact Or.inr ⟨covInv, rfl, hs⟩
        · intro _
          rfl
      · rw [if_neg hs]
        constructor
        · intro hc
          cases hc
        · rintro (hnone | ⟨covInv2, hinv2, habs⟩)
          · cases hnone
          · cases hinv2
            exact absurd habs hs
  · intro ws hws
    have hsum := maxSharpeWeights_sum_one meanRets cov rf ws hws
    rcases hinv : invertMatrix cov with _ | covInv
    · rw [maxSharpeWeights_inv_none meanRets cov rf hinv] at hws
      cases hws
    · rw [maxSharpeWeights_inv_some meanRets cov rf covInv (by omega) hinv] at hws
      split at hws
      · cases hws
      · cases hws
        exact ⟨⟨covInv, rfl, rfl⟩, hsum⟩

theorem claim_C3_witness :
    (maxSharpeWeights [(8 : ℚ) / 100, 12 / 100]
        [[(4 : ℚ) / 100, 1 / 100], [1 / 100, 9 / 100]] (4 / 100) = none ↔
      invertMatrix [[(4 : ℚ) / 100, 1 / 100], [1 / 100, 9 / 100]] = none ∨
        ∃ covInv, invertMatrix [[(4 : ℚ) / 100, 1 / 100], [1 / 100, 9 / 100]]
            = some covInv ∧
          |sumList (matVec covInv (([(8 : ℚ) / 100, 12 / 100]).map
            fun r => r - 4 / 100))| < tolInv)
    ∧ ∀ ws, maxSharpeWeights [(8 : ℚ) / 100, 12 / 100]
        [[(4 : ℚ) / 100, 1 / 100], [1 / 100, 9 / 100]] (4 / 100) = some ws →
        (∃ covInv, invertMatrix [[(4 : ℚ) / 100, 1 / 100], [1 / 100, 9 / 100]]
            = some covInv ∧
          ws = (matVec covInv (([(8 : ℚ) / 100, 12 / 100]).map
              fun r => r - 4 / 100)).map
            fun x => x / sumList (matVec covInv (([(8 : ℚ) / 100, 12 / 100]).map
              fun r => r - 4 / 100)))
        ∧ sumList ws = 1 :=
  claim_C3 [(8 : ℚ) / 100, 12 / 100]
    [[(4 : ℚ) / 100, 1 / 100], [1 / 100, 9 / 100]] (4 / 100) (by decide)

/-- C5: a covariance matrix built from `n` aligned return series of equal
length `T` is `n × n` and exactly symmetric with nonnegative diagonal;
entries use the unbiased denominator `T − 1`, and for `T ≤ 1` the
`buildCovMatrix` builder (the one reachable with `T ≤ 1`) defines the
entries as `0` instead of dividing by zero.  `covMatrix` — whose only
caller guarantees `T ≥ 2` — agrees with `buildCovMatrix` there. -/
theorem claim_C5 (returns : List (List ℚ)) (T : ℕ)
    (haligned : ∀ r ∈ returns, r.length = T)
    (hhead : (returns.headD []).length = T) :
    (buildCovMatrix returns).length = returns.length
    ∧ (∀ row ∈ buildCovMatrix returns, row.length = returns.length)
    ∧ (∀ i j, entry (buildCovMatrix returns) i j
        = entry (buildCovMatrix returns) j i)
    ∧ (∀ i, 0 ≤ entry (buildCovMatrix returns) i i)
    ∧ (2 ≤ T → ∀ i j, i < returns.length → j < returns.length →
        entry (buildCovMatrix returns) i j
          = covSum returns i j T / ((T : ℚ) - 1))
    ∧ (T ≤ 1 → ∀ i j, entry (buildCovMatrix returns) i j = 0)
    ∧ (2 ≤ T → covMatrix returns = buildCovMatrix returns)
    ∧ (∀ i j, entry (covMatrix returns) i j = entry (covMatrix returns) j i)
    ∧ (2 ≤ T → ∀ i, 0 ≤ entry (covMatrix returns) i i) := by
  have hb := isMat_buildCovMatrix returns
  refine ⟨hb.1, hb.2, ?_, ?_, ?_, ?_, ?_, ?_, ?_⟩
  · intro i j
    rw [entry_buildCovMatrix, entry_buildCovMatrix, covSum_comm]
    by_cases hij : i < returns.length ∧ j < returns.length
    · have hji : j < returns.length ∧ i < returns.length := ⟨hij.2, hij.1⟩
      rw [if_pos hij, if_pos hji]
    · have hji : ¬(j < returns.length ∧ i < returns.length) :=
        fun hc => hij ⟨hc.2, hc.1⟩
      rw [if_neg hij, if_neg hji]
  · intro i
    rw [entry_buildCovMatrix]
    split
    · split
      · refine div_nonneg (covSum_diag_nonneg returns i _) ?_
        have h1 : 1 < (returns.headD []).length := by assumption
        have : (1 : ℚ) < ((returns.headD []).length : ℚ) := by exact_mod_cast h1
        linarith
      · exact le_refl 0
    · exact le_refl 0
  · intro hT i j hi hj
    rw [entry_buildCovMatrix, if_pos ⟨hi, hj⟩, if_pos (by omega), hhead]
  · intro hT i j
    rw [entry_buildCovMatrix]
    split
    · rw [if_neg (by omega)]
    · rfl
  · intro hT
    exact covMatrix_eq_build returns (by omega)
  · intro i j
    rw [entry_covMatrix, entry_covMatrix, covSum_comm]
    by_cases hij : i < returns.length ∧ j < returns.length
    · have hji : j < returns.length ∧ i < returns.length := ⟨hij.2, hij.1⟩
      rw [if_pos hij, if_pos hji]
    · have hji : ¬(j < returns.length ∧ i < returns.length) :=
        fun hc => hij ⟨hc.2, hc.1⟩
      rw [if_neg hij, if_neg hji]
  · intro hT i
    rw [entry_covMatrix]
    split
    · refine div_nonneg (covSum_diag_nonneg returns i _) ?_
      have : (2 : ℚ) ≤ ((returns.headD []).length : ℚ) := by
        rw [hhead]
        exact_mod_cast hT
      linarith
    · exact le_refl 0

theorem claim_C5_witness :
    (buildCovMatrix [[(1 : ℚ) / 10, 2 / 10], [3 / 10, 1 / 10]]).length = 2
    ∧ (∀ row ∈ buildCovMatrix [[(1 : ℚ) / 10, 2 / 10], [3 / 10, 1 / 10]],
        row.length = 2)
    ∧ (∀ i j, entry (buildCovMatrix [[(1 : ℚ) / 10, 2 / 10], [3 / 10, 1 / 10]]) i j
        = entry (buildCovMatrix [[(1 : ℚ) / 10, 2 / 10], [3 / 10, 1 / 10]]) j i)
    ∧ (∀ i, 0 ≤ entry (buildCovMatrix [[(1 : ℚ) / 10, 2 / 10], [3 / 10, 1 / 10]]) i i)
    ∧ (2 ≤ 2 → ∀ i j, i < ([[(1 : ℚ) / 10, 2 / 10], [3 / 10, 1 / 10]] : List (List ℚ)).length →
        j < ([[(1 : ℚ) / 10, 2 / 10], [3 / 10, 1 / 10]] : List (List ℚ)).length →
        entry (buildCovMatrix [[(1 : ℚ) / 10, 2 / 10], [3 / 10, 1 / 10]]) i j
          = covSum [[(1 : ℚ) / 10, 2 / 10], [3 / 10, 1 / 10]] i j 2 / ((2 : ℚ) - 1))
    ∧ (2 ≤ 1 → ∀ i j, entry (buildCovMatrix [[(1 : ℚ) / 10, 2 / 10], [3 / 10, 1 / 10]]) i j = 0)
    ∧ (2 ≤ 2 → covMatrix [[(1 : ℚ) / 10, 2 / 10], [3 / 10, 1 / 10]]
        = buildCovMatrix [[(1 : ℚ) / 10, 2 / 10], [3 / 10, 1 / 10]])
    ∧ (∀ i j, entry (covMatrix [[(1 : ℚ) / 10, 2 / 10], [3 / 10, 1 / 10]]) i j
        = entry (covMatrix [[(1 : ℚ) / 10, 2 / 10], [3 / 10, 1 / 10]]) j i)
    ∧ (2 ≤ 2 → ∀ i, 0 ≤ entry (covMatrix [[(1 : ℚ) / 10, 2 / 10], [3 / 10, 1 / 10]]) i i) := by
  have h := claim_C5 [[(1 : ℚ) / 10, 2 / 10], [3 / 10, 1 / 10]] 2
    (by decide) (by decide)
  exact ⟨h.1, h.2.1, h.2.2.1, h.2.2.2.1, h.2.2.2.2.1, fun hc => absurd hc (by decide),
    h.2.2.2.2.2.2.1, h.2.2.2.2.2.2.2.1, h.2.2.2.2.2.2.2.2⟩

/-- C6: `portfolioSharpe` computes `expectedReturn = Σ wᵢ·μᵢ` and
`variance = Σᵢ Σⱼ wᵢ·wⱼ·Σᵢⱼ` (as folds equal to the index sums), floors
the variance at 0 before the square root, and returns
`(expectedReturn − rf)/risk` when the risk is positive and `0` when the
floored variance (hence the risk) is zero — it is a total function and
never signals an error. -/
theorem claim_C6 (weights meanRets : List ℚ) (cov : List (List ℚ)) (rf : ℚ)
    (n : ℕ) (hw : weights.length = n) (hm : meanRets.length = n)
    (hcov : isMat cov n n) :
    portRetOf meanRets weights
      = (∑ i in Finset.range n, weights.getD i 0 * meanRets.getD i 0)
    ∧ portVarOf weights cov
      = (∑ i in Finset.range n, ∑ j in Finset.range n,
          weights.getD i 0 * weights.getD j 0 * entry cov i j)
    ∧ (0 < portVarOf weights cov →
        portfolioSharpe weights meanRets cov rf =
          ((portRetOf meanRets weights - rf : ℚ) : ℝ) /
            Real.sqrt ((portVarOf weights cov : ℚ) : ℝ))
    ∧ (portVarOf weights cov ≤ 0 →
        portfolioSharpe weights meanRets cov rf = 0) := by
  refine ⟨?_, ?_, portfolioSharpe_pos weights meanRets cov rf,
    portfolioSharpe_nonpos weights meanRets cov rf⟩
  · rw [portRetOf_eq_sum, hm]
    exact Finset.sum_congr rfl fun i _ => mul_comm _ _
  · rw [portVarOf_eq_sum, hw]

theorem claim_C6_witness :
    portRetOf [(8 : ℚ) / 100, 12 / 100] [(1 : ℚ) / 2, 1 / 2]
      = (∑ i in Finset.range 2,
          ([(1 : ℚ) / 2, 1 / 2]).getD i 0 * ([(8 : ℚ) / 100, 12 / 100]).getD i 0)
    ∧ portVarOf [(1 : ℚ) / 2, 1 / 2] [[(4 : ℚ) / 100, 0], [0, 4 / 100]]
      = (∑ i in Finset.range 2, ∑ j in Finset.range 2,
          ([(1 : ℚ) / 2, 1 / 2]).getD i 0 * ([(1 : ℚ) / 2, 1 / 2]).getD j 0 *
            entry [[(4 : ℚ) / 100, 0], [0, 4 / 100]] i j)
    ∧ (0 < portVarOf [(1 : ℚ) / 2, 1 / 2] [[(4 : ℚ) / 100, 0], [0, 4 / 100]] →
        portfolioSharpe [(1 : ℚ) / 2, 1 / 2] [(8 : ℚ) / 100, 12 / 100]
            [[(4 : ℚ) / 100, 0], [0, 4 / 100]] (4 / 100) =
          ((portRetOf [(8 : ℚ) / 100, 12 / 100] [(1 : ℚ) / 2, 1 / 2] - 4 / 100 : ℚ) : ℝ) /
            Real.sqrt ((portVarOf [(1 : ℚ) / 2, 1 / 2]
              [[(4 : ℚ) / 100, 0], [0, 4 / 100]] : ℚ) : ℝ))
    ∧ (portVarOf [(1 : ℚ) / 2, 1 / 2] [[(4 : ℚ) / 100, 0], [0, 4 / 100]] ≤ 0 →
        portfolioSharpe [(1 : ℚ) / 2, 1 / 2] [(8 : ℚ) / 100, 12 / 100]
          [[(4 : ℚ) / 100, 0], [0, 4 / 100]] (4 / 100) = 0) :=
  claim_C6 [(1 : ℚ) / 2, 1 / 2] [(8 : ℚ) / 100, 12 / 100]
    [[(4 : ℚ) / 100, 0], [0, 4 / 100]] (4 / 100) 2 (by decide) (by decide)
    ⟨by decide, by decide⟩

/-- C1: for a nonempty asset universe with common aligned length ≥ 2 and
`nPoints > 0`, `computeEfficientFrontier` sweeps `nPoints + 1` equally
spaced targets from the minimum to the maximum per-asset mean return
(inclusive): the first target is the minimum, the last the maximum, the
spacing is constant `(max − min)/nPoints`, and `low`/`high` really are the
minimum/maximum of the per-asset means.  The output is a permutation of
the successful solves (singular targets are skipped, the sweep never
fails), is sorted ascending by risk, and every point's risk is ≥ 0. -/
theorem claim_C1 (assetReturns : List (List ℚ)) (nPoints : ℕ)
    (h0 : assetReturns ≠ []) (h2 : 2 ≤ minLenOf assetReturns)
    (hnp : 0 < nPoints) :
    sweepTarget (frontLow assetReturns) (frontHigh assetReturns) nPoints 0
      = frontLow assetReturns
    ∧ sweepTarget (frontLow assetReturns) (frontHigh assetReturns) nPoints nPoints
      = frontHigh assetReturns
    ∧ (∀ i, sweepTarget (frontLow assetReturns) (frontHigh assetReturns)
          nPoints (i + 1)
        - sweepTarget (frontLow assetReturns) (frontHigh assetReturns) nPoints i
        = (frontHigh assetReturns - frontLow assetReturns) / (nPoints : ℚ))
    ∧ ((List.range (nPoints + 1)).map
        fun i => sweepTarget (frontLow assetReturns) (frontHigh assetReturns)
          nPoints i).length = nPoints + 1
    ∧ (∀ m ∈ frontMeans assetReturns,
        frontLow assetReturns ≤ m ∧ m ≤ frontHigh assetReturns)
    ∧ frontLow assetReturns ∈ frontMeans assetReturns
    ∧ frontHigh assetReturns ∈ frontMeans assetReturns
    ∧ List.Perm (computeEfficientFrontier assetReturns nPoints)
        (((List.range (nPoints + 1)).map
            fun i => sweepTarget (frontLow assetReturns)
              (frontHigh assetReturns) nPoints i).filterMap
          (frontierPointAt (frontMeans assetReturns)
            (covMatrix (alignedReturns assetReturns))))
    ∧ List.Sorted (fun a b : PortfolioPoint => a.risk ≤ b.risk)
        (computeEfficientFrontier assetReturns nPoints)
    ∧ (∀ p ∈ computeEfficientFrontier assetReturns nPoints,
        0 ≤ p.risk ∧ 0 ≤ p.var2) := by
  have hmne : frontMeans assetReturns ≠ [] := by
    unfold frontMeans alignedReturns
    simp [h0]
  have hout : computeEfficientFrontier assetReturns nPoints =
      List.insertionSort byRisk (frontRaw assetReturns nPoints) :=
    computeEfficientFrontier_eq assetReturns nPoints h0 h2
  refine ⟨sweepTarget_zero _ _ _, sweepTarget_last _ _ _ hnp,
    fun i => sweepTarget_spacing _ _ _ i hnp,
    by rw [List.length_map, List.length_range],
    fun m hm => ⟨listMin_le _ m hm, le_listMax _ m hm⟩,
    listMin_mem _ hmne, listMax_mem _ hmne, ?_, ?_, ?_⟩
  · rw [hout]
    refine (List.perm_insertionSort byRisk _).trans ?_
    have heq : frontRaw assetReturns nPoints =
        ((List.range (nPoints + 1)).map
          fun i => sweepTarget (frontLow assetReturns)
            (frontHigh assetReturns) nPoints i).filterMap
          (frontierPointAt (frontMeans assetReturns)
            (covMatrix (alignedReturns assetReturns))) := by
      rw [List.filterMap_map]
      rfl
    rw [heq]
  · rw [hout]
    exact sorted_byRisk_risk (List.sorted_insertionSort byRisk _)
  · intro p hp
    rw [hout] at hp
    have hp' : p ∈ frontRaw assetReturns nPoints :=
      ((List.perm_insertionSort byRisk _).mem_iff).mp hp
    exact ⟨Real.sqrt_nonneg _, frontRaw_var2_nonneg assetReturns nPoints p hp'⟩

theorem claim_C1_witness :
    List.Sorted (fun a b : PortfolioPoint => a.risk ≤ b.risk)
      (computeEfficientFrontier [[(1 : ℚ) / 10, 2 / 10], [3 / 10, 1 / 10]] 2) :=
  (claim_C1 [[(1 : ℚ) / 10, 2 / 10], [3 / 10, 1 / 10]] 2 (by decide) (by decide)
    (by decide)).2.2.2.2.2.2.2.2.1

/-- C9: both tangency-policy variants are exposed as entry points (the
source's pages import them although the engine file lacks them; modelled
from the spec).  `maxSharpeWeightsLongOnly` performs the same core
computation as `maxSharpeWeights` — it succeeds exactly when the core
succeeds — and always clips negative weights to 0 and renormalizes, so a
returned vector is nonnegative and sums to 1.  `minVarianceWeights` solves
the frontier system at the global-minimum-variance point, unconstrained on
return, returning a weight vector (of length `n`, summing to 1) or
`none`. -/
theorem claim_C9 :
    (∀ (meanRets : List ℚ) (cov : List (List ℚ)) (rf : ℚ),
      (maxSharpeWeightsLongOnly meanRets cov rf).isSome
        = (maxSharpeWeights meanRets cov rf).isSome)
    ∧ (∀ (meanRets : List ℚ) (cov : List (List ℚ)) (rf : ℚ) (w : List ℚ),
        maxSharpeWeights meanRets cov rf = some w →
        maxSharpeWeightsLongOnly meanRets cov rf =
          some ((w.map fun x => max 0 x).map
            fun x => x / sumList (w.map fun y => max 0 y)))
    ∧ (∀ (meanRets : List ℚ) (cov : List (List ℚ)) (rf : ℚ) (ws : List ℚ),
        maxSharpeWeightsLongOnly meanRets cov rf = some ws →
        sumList ws = 1 ∧ ∀ x ∈ ws, 0 ≤ x)
    ∧ (∀ (cov : List (List ℚ)) (w : List ℚ), minVarianceWeights cov = some w →
        w.length = cov.length ∧ sumList w = 1) := by
  have hclip : ∀ w : List ℚ, sumList w = 1 →
      0 < sumList (w.map fun x => max 0 x) := by
    intro w hw
    have h := sumList_clip_ge w
    rw [hw] at h
    linarith
  refine ⟨?_, ?_, ?_, fun cov w h => minVarianceWeights_sum_one cov w h⟩
  · intro μ cov rf
    unfold maxSharpeWeightsLongOnly
    rcases h : maxSharpeWeights μ cov rf with _ | w <;> rfl
  · intro μ cov rf w hw
    unfold maxSharpeWeightsLongOnly
    rw [hw, Option.map_some']
    have hs := hclip w (maxSharpeWeights_sum_one μ cov rf w hw)
    dsimp only
    rw [if_neg hs.ne']
  · intro μ cov rf ws hws
    unfold maxSharpeWeightsLongOnly at hws
    rcases hw : maxSharpeWeights μ cov rf with _ | w
    · rw [hw] at hws
      cases hws
    · rw [hw, Option.map_some'] at hws
      have hs := hclip w (maxSharpeWeights_sum_one μ cov rf w hw)
      rw [show (let clipped := w.map fun x => max 0 x;
          let s := sumList clipped;
          if s = 0 then clipped else clipped.map fun x => x / s)
          = (w.map fun x => max 0 x).map
              (fun x => x / sumList (w.map fun x => max 0 x)) from by
        dsimp only
        rw [if_neg hs.ne']] at hws
      cases hws
      constructor
      · rw [sumList_map_div, div_self hs.ne']
      · intro x hx
        obtain ⟨y, hy, rfl⟩ := List.mem_map.mp hx
        obtain ⟨z, _, rfl⟩ := List.mem_map.mp hy
        exact div_nonneg (le_max_left 0 z) hs.le

/-- Concrete instance: the one-asset global-minimum-variance solve. -/
theorem minVarianceWeights_single :
    minVarianceWeights [[(1 : ℚ) / 25]] = some [1] := by
  norm_num [minVarianceWeights, minVarMatrix, solve, solveAug, gjRun_succ,
    gjRun_zero, gjStep, gjElim, pivotRow, swapRows, scaleRow, subRow, entry,
    tolSolve, List.range_succ, List.range', abs_of_pos, abs_of_neg]

theorem claim_C9_witness :
    ([(1 : ℚ)] : List ℚ).length = ([[(1 : ℚ) / 25]] : List (List ℚ)).length ∧
    sumList [(1 : ℚ)] = 1 :=
  claim_C9.2.2.2 [[(1 : ℚ) / 25]] [(1 : ℚ)] minVarianceWeights_single

/-- C4 (evaluation at the failing input): for the single-asset input
`[[0.1, 0.2]]` with the default `nPoints = 50`, `computeEfficientFrontier`
returns the empty frontier, not one degenerate point: the `(n+2)`-KKT
matrix is singular for `n = 1` (its last two rows are dependent), so every
target of the sweep is skipped. -/
theorem claim_C4_eval :
    computeEfficientFrontier [[(1 : ℚ) / 10, 2 / 10]] 50 = [] := by
  have h0 : ([[(1 : ℚ) / 10, 2 / 10]] : List (List ℚ)) ≠ [] := by decide
  have h2 : 2 ≤ minLenOf [[(1 : ℚ) / 10, 2 / 10]] := by decide
  rw [computeEfficientFrontier_eq _ 50 h0 h2]
  have hmeans : frontMeans [[(1 : ℚ) / 10, 2 / 10]] = [3 / 20] := by
    norm_num [frontMeans, alignedReturns, minLenOf, meanOf, sumList]
  have hcov : covMatrix (alignedReturns [[(1 : ℚ) / 10, 2 / 10]])
      = [[1 / 200]] := by
    norm_num [covMatrix, alignedReturns, minLenOf, covSum, sumList, entry,
      List.range_succ]
  have hlow : frontLow [[(1 : ℚ) / 10, 2 / 10]] = 3 / 20 := by
    rw [frontLow, hmeans]
    norm_num [listMin]
  have hhigh : frontHigh [[(1 : ℚ) / 10, 2 / 10]] = 3 / 20 := by
    rw [frontHigh, hmeans]
    norm_num [listMax]
  have hconst : ∀ i : ℕ, sweepTarget (3 / 20) (3 / 20) 50 i = 3 / 20 := by
    intro i
    unfold sweepTarget
    ring
  have hnone : frontierPointAt [(3 : ℚ) / 20] [[(1 : ℚ) / 200]] (3 / 20)
      = none := by
    norm_num [frontierPointAt, optimizeWeights, kktMatrix, kktRhs, solve,
      solveAug, gjRun_succ, gjRun_zero, gjStep, gjElim, pivotRow, swapRows,
      scaleRow, subRow, entry, tolSolve, List.range_succ, List.range',
      abs_of_pos, abs_of_neg]
  have hraw : frontRaw [[(1 : ℚ) / 10, 2 / 10]] 50 = [] := by
    unfold frontRaw
    rw [hmeans, hcov, hlow, hhigh]
    rw [show (fun i => frontierPointAt [(3 : ℚ) / 20] [[(1 : ℚ) / 200]]
        (sweepTarget (3 / 20) (3 / 20) 50 i))
        = fun _ : ℕ => (none : Option PortfolioPoint) from
      funext fun i => by rw [hconst i, hnone]]
    simp
  rw [hraw]
  rfl

end Markowitz
